import Mathlib

/-!
Verification of the `save-aline-assignment` web scraper (`scraper.py`).

Strings are modelled as `List Char`.  The Python standard-library URL
functions `urlparse` / `urlunparse` that `scraper.py` calls are modelled
faithfully (scheme detection, `//`-netloc, fragment, query and path-params
splitting for `uses_params` schemes), with CPython's parse-raising path —
the mismatched-bracket `Invalid IPv6 URL` check — modelled by
`urlparseRaises` for the callers that wrap `urlparse` in `try/except`;
inputs are restricted to ASCII text without the control characters that
CPython strips before parsing.  `str.lower` / `str.upper` / `str.title` are modelled
for ASCII.  Python sets are modelled as duplicate-free lists; the unspecified
iteration order of `list(someSet)` is modelled by an explicit enumeration
parameter `setList` constrained by `SetListOK`.  External collaborators
(HTTP fetch, BeautifulSoup queries, trafilatura, `urljoin`) are parameters.
-/

abbrev Url := List Char

/-- ASCII lowercase of one character, as Python `str.lower` acts on ASCII. -/
def lowerChar (c : Char) : Char :=
  if 65 ≤ c.toNat ∧ c.toNat ≤ 90 then Char.ofNat (c.toNat + 32) else c

/-- ASCII uppercase of one character, as Python `str.upper` acts on ASCII. -/
def upperChar (c : Char) : Char :=
  if 97 ≤ c.toNat ∧ c.toNat ≤ 122 then Char.ofNat (c.toNat - 32) else c

/-- ASCII lowercase of a string (Python `str.lower`). -/
def lowerChars (s : List Char) : List Char := s.map lowerChar

/-- Split a list at the first occurrence of `sep`: returns the part before it
and, when `sep` occurs, the part after it (Python `str.split(sep, 1)` /
`str.find`). -/
def splitFirst (sep : Char) : List Char → List Char × Option (List Char)
  | [] => ([], none)
  | c :: cs =>
    if c = sep then ([], some cs)
    else
      let r := splitFirst sep cs
      (c :: r.1, r.2)

/-- Characters allowed in a URL scheme (CPython `scheme_chars`). -/
def isSchemeChar (c : Char) : Bool :=
  c.isAlpha || c.isDigit || c = '+' || c = '-' || c = '.'

/-- Scheme detection of CPython `urlsplit`: split at the first `:` when the
part before it is nonempty, starts with an ASCII letter and consists of
scheme characters; the scheme is lowercased. -/
def splitScheme (url : List Char) : List Char × List Char :=
  match splitFirst ':' url with
  | (before, some rest) =>
    match before with
    | [] => ([], url)
    | c :: cs =>
      if c.isAlpha = true ∧ (c :: cs).all isSchemeChar = true
      then ((c :: cs).map lowerChar, rest)
      else ([], url)
  | (_, none) => ([], url)

/-- A character ending the netloc part (`/`, `?` or `#`); `notStop c` is
true when `c` is none of them. -/
def notStop (c : Char) : Bool := !(c = '/' || c = '?' || c = '#')

/-- Netloc detection of CPython `urlsplit`: when the remainder starts with
`//`, the netloc runs until the next `/`, `?` or `#`. -/
def splitNetloc (url : List Char) : List Char × List Char :=
  match url with
  | '/' :: '/' :: rest => (rest.takeWhile notStop, rest.dropWhile notStop)
  | _ => ([], url)

/-- Split at the first occurrence of `sep`, the second part being empty when
`sep` does not occur (used for `#`-fragment and `?`-query). -/
def splitTail (sep : Char) (url : List Char) : List Char × List Char :=
  match splitFirst sep url with
  | (b, some r) => (b, r)
  | (b, none) => (b, [])

/-- The segment after the last `/` (the whole list when `/` is absent). -/
def lastSeg (url : List Char) : List Char :=
  (url.reverse.takeWhile (fun c => !(c = '/'))).reverse

/-- Everything up to and including the last `/` (empty when `/` is absent). -/
def dropLastSeg (url : List Char) : List Char :=
  (url.reverse.dropWhile (fun c => !(c = '/'))).reverse

/-- CPython `urlparse._splitparams`: split path params at the first `;`
occurring after the last `/` (or the first `;` at all when `/` is absent). -/
def splitParamsCore (url : List Char) : List Char × List Char :=
  if '/' ∈ url then
    match splitFirst ';' (lastSeg url) with
    | (s1, some ps) => (dropLastSeg url ++ s1, ps)
    | (_, none) => (url, [])
  else
    match splitFirst ';' url with
    | (s1, some ps) => (s1, ps)
    | (_, none) => (url, [])

/-- CPython `urlparse`: params are split off only when the path contains `;`. -/
def splitParams (url : List Char) : List Char × List Char :=
  if ';' ∈ url then splitParamsCore url else (url, [])

/-- The six components produced by Python `urlparse`. -/
structure URLParts where
  scheme : List Char
  netloc : List Char
  path : List Char
  params : List Char
  query : List Char
  fragment : List Char
deriving Repr, DecidableEq

/-- The schemes for which CPython `urlparse` splits path params
(`uses_params`; note it contains the empty scheme). -/
def usesParams (scheme : List Char) : Bool :=
  decide (scheme ∈ [[], "ftp".data, "hdl".data, "prospero".data, "http".data,
    "imap".data, "https".data, "shttp".data, "rtsp".data, "rtsps".data,
    "rtspu".data, "sip".data, "sips".data, "mms".data, "sftp".data,
    "tel".data])

/-- CPython `urlsplit`'s raising path on ASCII input: the
`Invalid IPv6 URL` check raises `ValueError` when the netloc contains `[`
without `]` or `]` without `[`.  (`_checknetloc` additionally rejects some
non-ASCII netlocs, outside this model's ASCII scope.)  Callers that wrap
`urlparse` in `try/except` treat `urlparseRaises url = true` as their error
branch. -/
def urlparseRaises (url : List Char) : Bool :=
  let netloc := (splitNetloc (splitScheme url).2).1
  (decide ('[' ∈ netloc) && !decide (']' ∈ netloc))
    || (decide (']' ∈ netloc) && !decide ('[' ∈ netloc))

/-- Model of Python `urllib.parse.urlparse` on non-raising input
(`urlparseRaises url = false`; control-character stripping of recent
CPython omitted, inputs assumed free of control characters).  Params are
split only for `uses_params` schemes. -/
def urlparse (url : List Char) : URLParts :=
  let sr := splitScheme url
  let nr := splitNetloc sr.2
  let fr := splitTail '#' nr.2
  let qr := splitTail '?' fr.1
  let pp := if usesParams sr.1 then splitParams qr.1 else (qr.1, [])
  ⟨sr.1, nr.1, pp.1, pp.2, qr.2, fr.2⟩

/-- Model of Python `urllib.parse.urlunparse` (via `urlunsplit`). -/
def urlunparse (p : URLParts) : List Char :=
  let u1 := if p.params = [] then p.path else p.path ++ ';' :: p.params
  let u2 :=
    if p.netloc ≠ [] ∨ u1.take 2 = ['/', '/'] then
      '/' :: '/' :: (p.netloc ++ (if u1 ≠ [] ∧ u1.head? ≠ some '/' then '/' :: u1 else u1))
    else u1
  let u3 := if p.scheme = [] then u2 else p.scheme ++ ':' :: u2
  let u4 := if p.query = [] then u3 else u3 ++ '?' :: p.query
  if p.fragment = [] then u4 else u4 ++ '#' :: p.fragment

/-- `url.startswith(('http://', 'https://'))` of `WebScraper.normalize_url`. -/
def hasHttpScheme (u : List Char) : Bool :=
  ("http://".data.isPrefixOf u) || ("https://".data.isPrefixOf u)

/-- Scheme inference of `WebScraper.normalize_url`: prepend `https://` when
the URL does not start with `http://` or `https://`. -/
def withScheme (u : List Char) : List Char :=
  if hasHttpScheme u then u else "https://".data ++ u

/-- Python `path.rstrip('/')`: remove all trailing slashes. -/
def rstripSlash (p : List Char) : List Char :=
  (p.reverse.dropWhile (fun c => c = '/')).reverse

/-- `path.rstrip('/') or '/'` of `WebScraper.normalize_url`: strip trailing
slashes, falling back to `/` when that leaves nothing. -/
def normPath (p : List Char) : List Char :=
  if rstripSlash p = [] then ['/'] else rstripSlash p

/-- The component rewrite inside `WebScraper.normalize_url`: lowercase the
netloc and replace the path by `path.rstrip('/') or '/'`. -/
def normParts (p : URLParts) : URLParts :=
  { scheme := p.scheme
    netloc := lowerChars p.netloc
    path := normPath p.path
    params := p.params
    query := p.query
    fragment := p.fragment }

/-- `WebScraper.normalize_url` (scraper.py lines 39-58). -/
def normalize_url (u : List Char) : List Char :=
  urlunparse (normParts (urlparse (withScheme u)))

/-- `WebScraper.is_valid_url` (scraper.py lines 60-71): the bare
`try/except` maps `urlparse` errors (modelled by `urlparseRaises`) to
`False`; otherwise the URL is internal when its netloc is nonempty and
equals `base_domain` or ends with `"." + base_domain`.  The function never
raises. -/
def is_valid_url (url : List Char) (base_domain : List Char) : Bool :=
  if urlparseRaises url then false
  else
    let netloc := (urlparse url).netloc
    if netloc = [] then false
    else decide (netloc = base_domain) || ('.' :: base_domain).isSuffixOf netloc

/-- Python's substring test `pat in hay`. -/
def occursIn (pat : List Char) : List Char → Bool
  | [] => decide (pat = [])
  | c :: cs => pat.isPrefixOf (c :: cs) || occursIn pat cs

/-- Some pattern is a substring of `u`
(`any(pattern in url_lower for pattern in [...])`). -/
def matchesAny (u : List Char) (pats : List (List Char)) : Bool :=
  pats.any (fun p => occursIn p u)

/-- `WebScraper.detect_content_type` (scraper.py lines 134-155).  The source
lowercases `title` into a local that is never used; classification depends
only on the URL. -/
def detect_content_type (url title content : List Char) : List Char :=
  let url_lower := lowerChars url
  if matchesAny url_lower ["/blog/".data, "/post/".data, "/article/".data] then
    "blog".data
  else if matchesAny url_lower ["/podcast/".data, "/episode/".data] then
    "podcast_transcript".data
  else if matchesAny url_lower ["/call/".data, "/meeting/".data] then
    "call_transcript".data
  else if matchesAny url_lower ["linkedin.com".data, "/posts/".data] then
    "linkedin_post".data
  else if matchesAny url_lower ["reddit.com".data, "/comments/".data] then
    "reddit_comment".data
  else if matchesAny url_lower ["/book/".data, "/books/".data] then
    "book".data
  else if matchesAny url_lower ["/guide/".data, "/guides/".data, "/tutorial/".data] then
    "blog".data
  else
    "blog".data

/-- The classifier as the spec words it: an ordered rule list, first matching
substring group wins. -/
def contentRules : List (List (List Char) × List Char) :=
  [ (["/blog/".data, "/post/".data, "/article/".data], "blog".data),
    (["/podcast/".data, "/episode/".data], "podcast_transcript".data),
    (["/call/".data, "/meeting/".data], "call_transcript".data),
    (["linkedin.com".data, "/posts/".data], "linkedin_post".data),
    (["reddit.com".data, "/comments/".data], "reddit_comment".data),
    (["/book/".data, "/books/".data], "book".data),
    (["/guide/".data, "/guides/".data, "/tutorial/".data], "blog".data) ]

/-- Spec reading of the classifier: lowercase the URL, scan `contentRules`
in order, return the label of the first matching group, default `blog`. -/
def classifySpec (url : List Char) : List Char :=
  match contentRules.find? (fun r => matchesAny (lowerChars url) r.1) with
  | some r => r.2
  | none => "blog".data

/-- Python `str.strip()`: remove leading and trailing whitespace. -/
def strip (s : List Char) : List Char :=
  ((s.dropWhile Char.isWhitespace).reverse.dropWhile Char.isWhitespace).reverse

/-- Python `str.split(sep)` for a single separator character. -/
def splitOnChar (sep : Char) : List Char → List (List Char)
  | [] => [[]]
  | c :: cs =>
    let r := splitOnChar sep cs
    if c = sep then [] :: r
    else (c :: r.headD []) :: r.tail

/-- Python `str.title()` for ASCII: uppercase a letter after a non-letter,
lowercase a letter after a letter. -/
def pyTitleAux : Bool → List Char → List Char
  | _, [] => []
  | prev, c :: cs =>
    (if c.isAlpha then (if prev then lowerChar c else upperChar c) else c)
      :: pyTitleAux c.isAlpha cs

/-- Python `str.title()` for ASCII. -/
def pyTitle (s : List Char) : List Char := pyTitleAux false s

/-- The `replace('-', ' ').replace('_', ' ')` of the URL-based title. -/
def replChar (c : Char) : Char :=
  if c = '-' then ' ' else if c = '_' then ' ' else c

/-- What `extract_content` sees of a fetched page: the stripped-later text of
`soup.select_one(sel)` per selector (`none` when no element matches), and the
trafilatura markdown output (`none` when extraction yields nothing). -/
structure Page where
  selectorText : List Char → Option (List Char)
  extracted : Option (List Char)

/-- The selector priority list of `WebScraper.extract_content` (line 186). -/
def selectors : List (List Char) :=
  ["h1".data, "title".data, ".post-title".data, ".entry-title".data,
   ".article-title".data]

/-- Python truthiness of the `title` local: `None` and `""` are falsy. -/
def optTruthy : Option (List Char) → Bool
  | none => false
  | some s => !(s.isEmpty)

/-- Markdown-heading fallback (lines 193-198): the first line of the
extracted markdown starting with `"# "`, with the marker removed, stripped. -/
def firstHeading (extracted : List Char) : Option (List Char) :=
  ((splitOnChar '\n' extracted).find? (fun l => "# ".data.isPrefixOf l)).map
    (fun l => strip (l.drop 2))

/-- URL-based title fallback (line 202):
`urlparse(url).path.split('/')[-1].replace('-',' ').replace('_',' ').title()`. -/
def urlTitle (url : List Char) : List Char :=
  pyTitle ((lastSeg (urlparse url).path).map replChar)

/-- The title computation of `WebScraper.extract_content` (lines 183-202):
first selector whose element exists (its stripped text, which the falsy check
skips when empty), else the first markdown `"# "` line, else the URL-based
title. -/
def computeTitle (page : Page) (url : List Char) (extracted : List Char) :
    List Char :=
  let t1 : Option (List Char) :=
    selectors.findSome? (fun sel => (page.selectorText sel).map strip)
  let t2 : Option (List Char) :=
    if optTruthy t1 then t1
    else
      match firstHeading extracted with
      | some h => some h
      | none => t1
  match t2 with
  | some t => if t.isEmpty then urlTitle url else t
  | none => urlTitle url

/-- The record built by `WebScraper.extract_content` (lines 206-211). -/
structure ExtractionRecord where
  title : List Char
  content : List Char
  content_type : List Char
  source_url : List Char
deriving Repr, DecidableEq

/-- `WebScraper.extract_content` (lines 157-215).  `fetched = none` models a
fetch failure (the `except` branch returns `None`); a falsy trafilatura
result (`None` or `""`) also yields `None`. -/
def extract_content (fetched : Option Page) (url : List Char) :
    Option ExtractionRecord :=
  match fetched with
  | none => none
  | some page =>
    match page.extracted with
    | none => none
    | some md =>
      if md.isEmpty then none
      else
        some { title := computeTitle page url md
               content := md
               content_type := detect_content_type url (computeTitle page url md) md
               source_url := url }

/-- The title fallback chain as the spec words it: an ordered list of
strategies, the first non-empty result wins, with the URL-derived title as
the final tier (returned even when empty). -/
def titleChain (page : Page) (url : List Char) (extracted : List Char) :
    List Char :=
  match [selectors.findSome? (fun sel => (page.selectorText sel).map strip),
         firstHeading extracted].findSome?
          (fun t => if optTruthy t then t else none) with
  | some t => t
  | none => urlTitle url

/-- The scraper's instance state (`WebScraper.__init__`, lines 30-37):
`max_pages`, `delay`, the session headers, and the `visited_urls` set
(modelled as a duplicate-free list). -/
structure ScraperState where
  max_pages : Nat
  delay : Rat
  session_headers : List (List Char × List Char)
  visited_urls : List Url
deriving DecidableEq

/-- The default `User-Agent` header installed on the session (lines 34-36). -/
def defaultHeaders : List (List Char × List Char) :=
  [("User-Agent".data,
    "Mozilla/5.0 (Macintosh; Intel Mac OS X 10_15_7) AppleWebKit/537.36 (KHTML, like Gecko) Chrome/91.0.4472.124 Safari/537.36".data)]

/-- `WebScraper.__init__` (defaults in the source: `max_pages=50`,
`delay=0.5`); `visited_urls` starts empty. -/
def initScraper (max_pages : Nat) (delay : Rat) : ScraperState :=
  ⟨max_pages, delay, defaultHeaders, []⟩

/-- Specification of a valid model of Python's `list(someSet)` conversion:
it returns a duplicate-free list with the same members.  CPython leaves the
iteration order of a `set` of strings unspecified (hash-randomized). -/
def SetListOK (f : List Url → List Url) : Prop :=
  ∀ l : List Url, (f l).Nodup ∧ ∀ x : Url, x ∈ f l ↔ x ∈ l

/-- The crawl's collaborators and per-crawl constants: the fetch function of
the crawl phase (`none` = any fetch/HTTP failure, `some hrefs` = the page's
anchor targets), the stdlib `urljoin`, the set-enumeration model, the page
quota and the crawl's base domain. -/
structure CrawlEnv where
  web : Url → Option (List Url)
  urljoin : Url → Url → Url
  setList : List Url → List Url
  max_pages : Nat
  base_domain : Url

/-- `WebScraper.extract_links` (lines 73-88): resolve each anchor target
against the page URL, normalize, keep internal URLs, deduplicate
(`list(set(links))`). -/
def extract_links (env : CrawlEnv) (hrefs : List Url) (base_url : Url) :
    List Url :=
  env.setList
    ((hrefs.map (fun h => normalize_url (env.urljoin base_url h))).filter
      (fun u => is_valid_url u env.base_domain))

/-- The crawl loop's mutable state (lines 98-99 plus the scraper's
`visited_urls`); `fetch_log` is a ghost history recording one entry per
`session.get` attempt of the crawl phase. -/
structure CrawlSt where
  urls_to_visit : List Url
  found_urls : List Url
  visited_urls : List Url
  fetch_log : List Url
deriving DecidableEq

/-- The inner `for link in new_links` loop (lines 119-122): append each link
not yet discovered to `found_urls` and to the frontier, while the quota
allows. -/
def addLinks (env : CrawlEnv) : List Url → CrawlSt → CrawlSt
  | [], st => st
  | l :: ls, st =>
    addLinks env ls
      (if l ∉ st.found_urls ∧ st.found_urls.length < env.max_pages then
        { st with found_urls := st.found_urls ++ [l]
                  urls_to_visit := st.urls_to_visit ++ [l] }
      else st)

/-- One iteration body of the crawl loop after popping `current`
(lines 104-129): skip if already visited; on fetch failure skip; on success
mark visited and add the extracted links. -/
def crawlStep (env : CrawlEnv) (st : CrawlSt) (current : Url) : CrawlSt :=
  if current ∈ st.visited_urls then st
  else
    let st1 := { st with fetch_log := st.fetch_log ++ [current] }
    match env.web current with
    | none => st1
    | some hrefs =>
      addLinks env (extract_links env hrefs current)
        { st1 with visited_urls := st1.visited_urls ++ [current] }

/-- The `while urls_to_visit and len(found_urls) < self.max_pages` loop
(line 103), written with explicit fuel; `none` means the fuel ran out before
the loop exited. -/
def crawlLoop (env : CrawlEnv) : Nat → CrawlSt → Option CrawlSt
  | 0, _ => none
  | fuel + 1, st =>
    match st.urls_to_visit with
    | [] => some st
    | current :: rest =>
      if st.found_urls.length < env.max_pages then
        crawlLoop env fuel (crawlStep env { st with urls_to_visit := rest } current)
      else
        some st

/-- The initial crawl state (lines 98-99): the normalized root seeds both
the frontier and `found_urls`. -/
def initCrawlSt (visited : List Url) (root : Url) : CrawlSt :=
  ⟨[root], [root], visited, []⟩

/-- The environment `crawl_site` runs in (lines 95-96): the base domain is
the netloc of the normalized root. -/
def crawlEnv (web : Url → Option (List Url)) (urljoin : Url → Url → Url)
    (setList : List Url → List Url) (scraper : ScraperState) (root : Url) :
    CrawlEnv :=
  ⟨web, urljoin, setList, scraper.max_pages, (urlparse root).netloc⟩

/-- Fuel that always suffices for `crawlLoop` (proved in
`crawlLoop_total`). -/
def crawlFuel (max_pages : Nat) : Nat := max_pages + 2

/-- The final crawl-loop state of `WebScraper.crawl_site`. -/
def crawlFinal (web : Url → Option (List Url)) (urljoin : Url → Url → Url)
    (setList : List Url → List Url) (scraper : ScraperState) (root_url : Url) :
    CrawlSt :=
  let root := normalize_url root_url
  let env := crawlEnv web urljoin setList scraper root
  (crawlLoop env (crawlFuel scraper.max_pages)
      (initCrawlSt scraper.visited_urls root)).getD
    (initCrawlSt scraper.visited_urls root)

/-- `WebScraper.crawl_site` (lines 90-132): returns `list(found_urls)` and
the scraper state (only `visited_urls` may differ). -/
def crawl_site (web : Url → Option (List Url)) (urljoin : Url → Url → Url)
    (setList : List Url → List Url) (scraper : ScraperState) (root_url : Url) :
    List Url × ScraperState :=
  let fin := crawlFinal web urljoin setList scraper root_url
  (setList fin.found_urls, { scraper with visited_urls := fin.visited_urls })

/-- The link relation induced by one crawl environment: `v` is linked from
`u` when `v` is among the normalized internal links of `u`'s page. -/
def outLinksEnv (env : CrawlEnv) (u : Url) : List Url :=
  extract_links env ((env.web u).getD []) u

/-- One hop of the crawl's link graph. -/
def crawlRel (env : CrawlEnv) (u v : Url) : Prop := v ∈ outLinksEnv env u

/-- `build_output` / the value returned by `scrape_site` (lines 217-243). -/
structure ScrapeOut where
  site : Url
  items : List ExtractionRecord
deriving DecidableEq

/-- `WebScraper.scrape_site` (lines 224-243): normalize, crawl, then fetch
each discovered URL independently (`webExtract`) and keep the successful
extractions in order. -/
def scrape_site (webCrawl : Url → Option (List Url))
    (webExtract : Url → Option Page) (urljoin : Url → Url → Url)
    (setList : List Url → List Url) (scraper : ScraperState) (url : Url) :
    ScrapeOut × ScraperState :=
  let normalized := normalize_url url
  let cr := crawl_site webCrawl urljoin setList scraper normalized
  (⟨normalized, cr.1.filterMap (fun v => extract_content (webExtract v) v)⟩,
   cr.2)

/-- The crawl-loop invariant used to prove BFS completeness on a clean
start: the discovered and frontier lists are duplicate-free, the frontier
and the visited set lie inside the discovered set, visited URLs are off the
frontier, every discovered URL is reachable from the root, every discovered
URL is either still on the frontier or has been visited with all its links
discovered, the root stays discovered, and the ghost fetch log is
duplicate-free, inside the discovered set and off the frontier. -/
def CrawlInv (env : CrawlEnv) (root : Url) (st : CrawlSt) : Prop :=
  st.found_urls.Nodup
  ∧ st.urls_to_visit.Nodup
  ∧ (∀ u ∈ st.urls_to_visit, u ∈ st.found_urls)
  ∧ (∀ u ∈ st.visited_urls, u ∉ st.urls_to_visit ∧ u ∈ st.found_urls)
  ∧ (∀ u ∈ st.found_urls, Relation.ReflTransGen (crawlRel env) root u)
  ∧ (∀ u ∈ st.found_urls,
      u ∈ st.urls_to_visit
        ∨ (u ∈ st.visited_urls ∧ ∀ v ∈ outLinksEnv env u, v ∈ st.found_urls))
  ∧ root ∈ st.found_urls
  ∧ st.fetch_log.Nodup
  ∧ (∀ u ∈ st.fetch_log, u ∈ st.found_urls)
  ∧ (∀ u ∈ st.fetch_log, u ∉ st.urls_to_visit)

/-- A two-page site used in concrete runs: the root `https://b.co/` links to
`https://b.co/p`, which links nowhere; every fetch succeeds. -/
def webTwoPages : Url → Option (List Url) := fun u =>
  some (if u = "https://b.co/".data then ["https://b.co/p".data] else [])

/-- Extraction-phase pages for concrete runs: every page yields markdown
`"body text"`, no element matches any selector. -/
def pagesPlain : Url → Option Page :=
  fun _ => some ⟨fun _ => none, some "body text".data⟩

/-- A three-page site with a link cycle: the root `https://a.co/` links to
`/a` and `/b`; `/a` links back to the root and to `/b`; every fetch
succeeds. -/
def webCyc : Url → Option (List Url) := fun u =>
  some
    (if u = "https://a.co/".data then
      ["https://a.co/a".data, "https://a.co/b".data]
    else if u = "https://a.co/a".data then
      ["https://a.co/".data, "https://a.co/b".data]
    else [])

/-- The internal pages reachable from the root of `webCyc`. -/
def reachCyc : List Url :=
  ["https://a.co/".data, "https://a.co/a".data, "https://a.co/b".data]

/-- A page with no matching selector element and markdown without a `"# "`
heading line. -/
def pageNoTitle : Page := ⟨fun _ => none, some "hello".data⟩

/-- A page whose `h1` element has text `"  My Post  "`. -/
def pageWithH1 : Page :=
  ⟨fun sel => if sel = "h1".data then some "  My Post  ".data else none,
   some "content body".data⟩

/-! ## Helper lemmas -/

/-- `List.dedup` is a valid model of `list(someSet)`. -/
theorem setListOK_dedup : SetListOK List.dedup :=
  fun l => ⟨l.nodup_dedup, fun x => List.mem_dedup⟩

/-- Reversing a dedup is also a valid model of `list(someSet)` (set
iteration order is arbitrary). -/
theorem setListOK_revDedup : SetListOK (fun l => (List.dedup l).reverse) :=
  fun l =>
    ⟨by simpa using l.nodup_dedup, fun x => by simp [List.mem_dedup]⟩

/-! ## The claims -/

/-- C5: the content-type classifier ignores its `title` and `content`
arguments, agrees with the spec's ordered first-match rule table
`contentRules` (default `blog`), and classifies the spec's examples as
stated. -/
theorem classifier_url_only :
    (∀ url t1 c1 t2 c2 : List Char,
      detect_content_type url t1 c1 = detect_content_type url t2 c2)
    ∧ (∀ url title content : List Char,
      detect_content_type url title content = classifySpec url)
    ∧ detect_content_type "https://site.com/blog/my-post".data [] [] = "blog".data
    ∧ detect_content_type "https://site.com/podcast/ep-1".data [] [] =
        "podcast_transcript".data
    ∧ detect_content_type "https://linkedin.com/posts/123".data [] [] =
        "linkedin_post".data
    ∧ detect_content_type "https://site.com/nothing-here".data [] [] =
        "blog".data := by
  refine ⟨fun _ _ _ _ _ => rfl, ?_, by decide, by decide, by decide, by decide⟩
  intro url title content
  unfold detect_content_type classifySpec contentRules
  cases h1 : matchesAny (lowerChars url) ["/blog/".data, "/post/".data, "/article/".data] <;>
    cases h2 : matchesAny (lowerChars url) ["/podcast/".data, "/episode/".data] <;>
      cases h3 : matchesAny (lowerChars url) ["/call/".data, "/meeting/".data] <;>
        cases h4 : matchesAny (lowerChars url) ["linkedin.com".data, "/posts/".data] <;>
          cases h5 : matchesAny (lowerChars url) ["reddit.com".data, "/comments/".data] <;>
            cases h6 : matchesAny (lowerChars url) ["/book/".data, "/books/".data] <;>
              cases h7 : matchesAny (lowerChars url) ["/guide/".data, "/guides/".data, "/tutorial/".data] <;>
                simp_all [List.find?]

/-- C10: a crawl or scrape changes at most the `visited_urls` field of the
scraper state: `max_pages`, `delay` and the session headers are those set at
construction.  (`extract_content` is modelled as a pure function of the
fetched page; it reads but never writes scraper state.) -/
theorem frame_only_visited :
    ∀ (web : Url → Option (List Url)) (webE : Url → Option Page)
      (urljoin : Url → Url → Url) (setList : List Url → List Url)
      (scraper : ScraperState) (root_url : Url),
      ((crawl_site web urljoin setList scraper root_url).2.max_pages =
          scraper.max_pages
        ∧ (crawl_site web urljoin setList scraper root_url).2.delay =
          scraper.delay
        ∧ (crawl_site web urljoin setList scraper root_url).2.session_headers =
          scraper.session_headers)
      ∧ ((scrape_site web webE urljoin setList scraper root_url).2.max_pages =
          scraper.max_pages
        ∧ (scrape_site web webE urljoin setList scraper root_url).2.delay =
          scraper.delay
        ∧ (scrape_site web webE urljoin setList scraper root_url).2.session_headers =
          scraper.session_headers) :=
  fun _ _ _ _ _ _ => ⟨⟨rfl, rfl, rfl⟩, ⟨rfl, rfl, rfl⟩⟩

/-- When every crawl-phase fetch fails, the crawl still returns normally
with `found_urls = [root]` and an unchanged visited set (the `except` in
`crawl_site` swallows the failure). -/
theorem crawlFinal_allfail (urljoin : Url → Url → Url)
    (setList : List Url → List Url) (scraper : ScraperState) (ru : Url) :
    (crawlFinal (fun _ => none) urljoin setList scraper ru).found_urls =
        [normalize_url ru]
      ∧ (crawlFinal (fun _ => none) urljoin setList scraper ru).visited_urls =
        scraper.visited_urls := by
  unfold crawlFinal crawlFuel initCrawlSt crawlEnv
  by_cases hm : 1 < scraper.max_pages
  · by_cases hv : normalize_url ru ∈ scraper.visited_urls <;>
      simp [crawlLoop, crawlStep, hm, hv]
  · simp [crawlLoop, hm]

/-- When the normalized root is already in the scraper's persistent
`visited_urls`, the crawl pops it, skips it, and stops:
`found_urls = [root]`, visited set unchanged. -/
theorem crawlFinal_rootVisited (web : Url → Option (List Url))
    (urljoin : Url → Url → Url) (setList : List Url → List Url)
    (scraper : ScraperState) (ru : Url)
    (h : normalize_url ru ∈ scraper.visited_urls) :
    (crawlFinal web urljoin setList scraper ru).found_urls = [normalize_url ru]
      ∧ (crawlFinal web urljoin setList scraper ru).visited_urls =
        scraper.visited_urls := by
  unfold crawlFinal crawlFuel initCrawlSt crawlEnv
  by_cases hm : 1 < scraper.max_pages <;>
    simp [crawlLoop, crawlStep, hm, h]

/-- C8 (amended): a root URL that cannot be fetched at all is not surfaced:
with every fetch failing, `scrape_site` returns normally with an empty items
list and unchanged scraper state, so `main` takes its success path (exit
code 0) instead of aborting. -/
theorem root_failure_recovered :
    ∀ (urljoin : Url → Url → Url) (setList : List Url → List Url)
      (scraper : ScraperState) (url : Url),
      (scrape_site (fun _ => none) (fun _ => none) urljoin setList scraper
            url).1 =
          ⟨normalize_url url, []⟩
        ∧ (scrape_site (fun _ => none) (fun _ => none) urljoin setList scraper
            url).2 =
          scraper := by
  intro urljoin setList scraper url
  unfold scrape_site crawl_site
  constructor
  · have hfm : ∀ l : List Url,
        l.filterMap (fun v => extract_content none v) = [] := by
      intro l
      induction l with
      | nil => rfl
      | cons a t ih => simp [List.filterMap, extract_content, ih]
    simp [hfm]
  · have h2 := (crawlFinal_allfail urljoin setList scraper (normalize_url url)).2
    simp [h2]

/-- C8 counterexample to the claim as stated: with the root unreachable
(every fetch fails), the run is silently recovered into an empty-items
result — `scrape_site` returns `{site, items = []}` normally, so no non-zero
exit occurs (`main` only exits non-zero when `scrape_site` raises). -/
theorem root_failure_empty_items_cex :
    (scrape_site (fun _ => none) (fun _ => none) (fun _ h => h) List.dedup
        (initScraper 50 (1 / 2)) "example.com".data).1 =
      ⟨"https://example.com/".data, []⟩ := by
  decide

/-- C3 (amended): the visited set persists across invocations: when the
normalized root is already in the scraper's `visited_urls` (as after an
earlier `scrape_site` of the same site), `crawl_site` returns only the root
and leaves the state unchanged — the second invocation does not behave like
the first; only a freshly constructed scraper starts with an empty visited
set. -/
theorem visited_persists :
    ∀ (web : Url → Option (List Url)) (urljoin : Url → Url → Url)
      (setList : List Url → List Url) (scraper : ScraperState) (u : Url),
      normalize_url u ∈ scraper.visited_urls →
      (crawl_site web urljoin setList scraper u).1 = setList [normalize_url u]
        ∧ (crawl_site web urljoin setList scraper u).2 = scraper := by
  intro web urljoin setList scraper u h
  have h1 := crawlFinal_rootVisited web urljoin setList scraper u h
  constructor
  · show setList (crawlFinal web urljoin setList scraper u).found_urls =
      setList [normalize_url u]
    rw [h1.1]
  · show ({ scraper with
        visited_urls := (crawlFinal web urljoin setList scraper u).visited_urls } :
        ScraperState) = scraper
    rw [h1.2]

/-- C3 witness: a concrete scraper whose visited set already holds the
normalized root. -/
theorem visited_persists_witness :
    normalize_url "b.co".data ∈
        (⟨5, 0, [], ["https://b.co/".data]⟩ : ScraperState).visited_urls
      ∧ (crawl_site webTwoPages (fun _ h => h) List.dedup
            ⟨5, 0, [], ["https://b.co/".data]⟩ "b.co".data).1 =
        List.dedup [normalize_url "b.co".data] :=
  ⟨by decide,
   (visited_persists webTwoPages (fun _ h => h) List.dedup
      ⟨5, 0, [], ["https://b.co/".data]⟩ "b.co".data (by decide)).1⟩

/-- C3 counterexample to the claim as stated: a second `scrape_site` of the
same URL on the same scraper does not behave like the first — the first call
on a fresh scraper finds both pages of `webTwoPages`, the second finds only
the root, because `visited_urls` is never reset. -/
theorem visited_not_reset_cex :
    ¬ ((scrape_site webTwoPages pagesPlain (fun _ h => h) List.dedup
          ((scrape_site webTwoPages pagesPlain (fun _ h => h) List.dedup
              (initScraper 5 (1 / 2)) "b.co".data).2)
          "b.co".data).1 =
        (scrape_site webTwoPages pagesPlain (fun _ h => h) List.dedup
            (initScraper 5 (1 / 2)) "b.co".data).1) := by
  decide

/-- `str.title` preserves length. -/
theorem pyTitleAux_length (b : Bool) (s : List Char) :
    (pyTitleAux b s).length = s.length := by
  induction s generalizing b with
  | nil => rfl
  | cons c cs ih => simp [pyTitleAux, ih]

/-- The URL-derived fallback title is non-empty when the URL's final path
segment is non-empty. -/
theorem urlTitle_ne (url : Url) (h : lastSeg (urlparse url).path ≠ []) :
    urlTitle url ≠ [] := by
  intro hcon
  apply h
  have hl := congrArg List.length hcon
  simp only [urlTitle, pyTitle, pyTitleAux_length, List.length_map,
    List.length_nil] at hl
  exact List.eq_nil_of_length_eq_zero hl

/-- A first-non-empty scan that returns a value returns a non-empty one. -/
theorem truthy_of_findSome (L : List (Option (List Char))) (t : List Char)
    (h : L.findSome? (fun x => if optTruthy x then x else none) = some t) :
    t ≠ [] := by
  induction L with
  | nil => cases h
  | cons a l ih =>
    rw [List.findSome?_cons] at h
    cases ha : (if optTruthy a then a else none) with
    | none => rw [ha] at h; exact ih h
    | some b =>
      rw [ha] at h
      by_cases hta : optTruthy a = true
      · rw [if_pos hta] at ha
        subst ha
        cases h
        simp only [optTruthy, Bool.not_eq_true'] at hta
        simpa [List.isEmpty_iff] using hta
      · rw [if_neg hta] at ha; cases ha

/-- The source's title plumbing (`computeTitle`) is the ordered
first-non-empty strategy chain (`titleChain`): a tier whose result is empty
falls through. -/
theorem computeTitle_eq_titleChain (page : Page) (url : Url)
    (extracted : List Char) :
    computeTitle page url extracted = titleChain page url extracted := by
  simp only [computeTitle, titleChain]
  cases h1 : selectors.findSome? (fun sel => (page.selectorText sel).map strip) with
  | none =>
    cases h2 : firstHeading extracted with
    | none => simp [List.findSome?_cons, optTruthy]
    | some hd =>
      cases hd with
      | nil => simp [List.findSome?_cons, optTruthy]
      | cons d ds => simp [List.findSome?_cons, optTruthy]
  | some t =>
    cases t with
    | nil =>
      cases h2 : firstHeading extracted with
      | none => simp [List.findSome?_cons, optTruthy]
      | some hd =>
        cases hd with
        | nil => simp [List.findSome?_cons, optTruthy]
        | cons d ds => simp [List.findSome?_cons, optTruthy]
    | cons c cs => simp [List.findSome?_cons, optTruthy]

/-- The computed title is non-empty whenever the URL's final path segment
is. -/
theorem computeTitle_ne (page : Page) (url : Url) (md : List Char)
    (h : lastSeg (urlparse url).path ≠ []) :
    computeTitle page url md ≠ [] := by
  rw [computeTitle_eq_titleChain]
  unfold titleChain
  cases hts : ([selectors.findSome? (fun sel => (page.selectorText sel).map strip),
      firstHeading md].findSome? (fun t => if optTruthy t then t else none)) with
  | none => exact urlTitle_ne url h
  | some t => exact truthy_of_findSome _ t hts

/-- C4 (amended): every successful extraction resolves its title by the
three-tier fallback chain tried in order — first selector whose element
exists (an empty stripped text falls through), else the first markdown
`"# "` heading, else the humanized last URL path segment — and the title is
guaranteed non-empty only when the URL's final path segment is non-empty
(an earlier tier that fires is non-empty by construction). -/
theorem title_fallback :
    ∀ (page : Page) (url : Url) (r : ExtractionRecord),
      extract_content (some page) url = some r →
      (r.title = titleChain page url r.content
        ∧ (lastSeg (urlparse url).path ≠ [] → r.title ≠ [])) := by
  intro page url r h
  cases hm : page.extracted with
  | none => simp [extract_content, hm] at h
  | some md =>
    simp only [extract_content, hm] at h
    by_cases he : md.isEmpty
    · simp [he] at h
    · rw [if_neg he] at h
      injection h with h
      subst h
      exact ⟨computeTitle_eq_titleChain page url md,
        fun hseg => computeTitle_ne page url md hseg⟩

/-- C4 witness: a page whose `h1` strips to `"My Post"` yields that title. -/
theorem title_fallback_witness :
    extract_content (some pageWithH1) "https://ex.co/a-page".data =
      some ⟨"My Post".data, "content body".data, "blog".data,
        "https://ex.co/a-page".data⟩
    ∧ ("My Post".data =
        titleChain pageWithH1 "https://ex.co/a-page".data "content body".data
      ∧ (lastSeg (urlparse "https://ex.co/a-page".data).path ≠ [] →
          "My Post".data ≠ ([] : List Char))) :=
  ⟨by decide,
   title_fallback pageWithH1 "https://ex.co/a-page".data
     ⟨"My Post".data, "content body".data, "blog".data,
       "https://ex.co/a-page".data⟩ (by decide)⟩

/-- C4 counterexample to the claim as stated: the normalized site root has
path `/`, whose last segment is empty, so a page with no matching selector
element and no markdown heading extracts successfully with an **empty**
title. -/
theorem empty_title_cex :
    extract_content (some pageNoTitle) "https://example.com/".data =
      some ⟨[], "hello".data, "blog".data, "https://example.com/".data⟩ := by
  decide

/-- A successful extraction's `source_url` is the URL it was extracted
from. -/
theorem extract_source (f : Option Page) (u : Url) (r : ExtractionRecord)
    (h : extract_content f u = some r) : r.source_url = u := by
  cases f with
  | none => cases h
  | some page =>
    cases hm : page.extracted with
    | none => simp [extract_content, hm] at h
    | some md =>
      simp only [extract_content, hm] at h
      by_cases he : md.isEmpty
      · simp [he] at h
      · rw [if_neg he] at h
        injection h with h
        subst h
        rfl

/-- Mapping `source_url` over the successful extractions of a URL list gives
that list filtered to the URLs whose extraction succeeds. -/
theorem filterMap_source_eq_filter (f : Url → Option ExtractionRecord)
    (hf : ∀ v r, f v = some r → r.source_url = v) (l : List Url) :
    ((l.filterMap f).map (fun r => r.source_url)) =
      l.filter (fun v => (f v).isSome) := by
  induction l with
  | nil => rfl
  | cons a t ih =>
    cases ha : f a with
    | none => simp [List.filterMap_cons, List.filter_cons, ha, ih]
    | some r =>
      simp [List.filterMap_cons, List.filter_cons, ha, ih, hf a r ha]

/-- C9 (amended): the items sequence follows the iteration order of the
`found_urls` set as enumerated by `list(found_urls)` (an unspecified
permutation of the discovered URLs, modelled by `setList`), restricted to
the URLs whose extraction succeeded — not necessarily crawl discovery
order.  Each emitted record is exactly the successful extraction of its
`source_url`. -/
theorem items_follow_enumeration :
    ∀ (webC : Url → Option (List Url)) (webE : Url → Option Page)
      (urljoin : Url → Url → Url) (setList : List Url → List Url)
      (scraper : ScraperState) (u : Url),
      ((scrape_site webC webE urljoin setList scraper u).1.items).map
          (fun r => r.source_url) =
        ((crawl_site webC urljoin setList scraper (normalize_url u)).1).filter
          (fun v => (extract_content (webE v) v).isSome)
      ∧ ∀ r ∈ (scrape_site webC webE urljoin setList scraper u).1.items,
          extract_content (webE r.source_url) r.source_url = some r := by
  intro webC webE urljoin setList scraper u
  constructor
  · exact filterMap_source_eq_filter _
      (fun v r h => extract_source (webE v) v r h) _
  · intro r hr
    show extract_content (webE r.source_url) r.source_url = some r
    have hmem := List.mem_filterMap.mp hr
    obtain ⟨v, hv, hfv⟩ := hmem
    have hs := extract_source (webE v) v r hfv
    rw [hs]
    exact hfv

/-- C9 counterexample to the claim as stated: with a legitimate set
enumeration (`SetListOK` holds for reversed dedup; CPython's set order for
strings is hash-randomized and unspecified), the crawl discovers
`[root, /p]` in that order but the emitted items follow the enumeration
order `[/p, root]` — the i-th record does **not** correspond to the i-th URL
in discovery order. -/
theorem items_order_cex :
    SetListOK (fun l => (List.dedup l).reverse)
    ∧ (crawlFinal webTwoPages (fun _ h => h) (fun l => (List.dedup l).reverse)
          (initScraper 5 (1 / 2)) (normalize_url "b.co".data)).found_urls =
        ["https://b.co/".data, "https://b.co/p".data]
    ∧ ((scrape_site webTwoPages pagesPlain (fun _ h => h)
          (fun l => (List.dedup l).reverse) (initScraper 5 (1 / 2))
          "b.co".data).1.items).map (fun r => r.source_url) =
        ["https://b.co/p".data, "https://b.co/".data]
    ∧ (["https://b.co/p".data, "https://b.co/".data] : List Url) ≠
        ["https://b.co/".data, "https://b.co/p".data] :=
  ⟨setListOK_revDedup, by decide, by decide, by decide⟩

/-- The inner link-adding loop preserves `found_urls` being duplicate-free
and within quota. -/
theorem addLinks_found (env : CrawlEnv) (links : List Url) :
    ∀ st : CrawlSt, st.found_urls.Nodup →
      st.found_urls.length ≤ env.max_pages →
      (addLinks env links st).found_urls.Nodup
        ∧ (addLinks env links st).found_urls.length ≤ env.max_pages := by
  induction links with
  | nil => intro st h1 h2; exact ⟨h1, h2⟩
  | cons l ls ih =>
    intro st h1 h2
    rw [addLinks]
    by_cases hc : l ∉ st.found_urls ∧ st.found_urls.length < env.max_pages
    · rw [if_pos hc]
      refine ih _ ?_ ?_
      · simpa [List.nodup_append] using ⟨h1, hc.1⟩
      · simpa using hc.2
    · rw [if_neg hc]
      exact ih st h1 h2

/-- One crawl iteration preserves `found_urls` being duplicate-free and
within quota. -/
theorem crawlStep_found (env : CrawlEnv) (st : CrawlSt) (current : Url)
    (h1 : st.found_urls.Nodup) (h2 : st.found_urls.length ≤ env.max_pages) :
    (crawlStep env st current).found_urls.Nodup
      ∧ (crawlStep env st current).found_urls.length ≤ env.max_pages := by
  unfold crawlStep
  by_cases hv : current ∈ st.visited_urls
  · rw [if_pos hv]; exact ⟨h1, h2⟩
  · rw [if_neg hv]
    cases env.web current with
    | none => exact ⟨h1, h2⟩
    | some hrefs => exact addLinks_found env _ _ h1 h2

/-- The crawl loop preserves `found_urls` being duplicate-free and within
quota. -/
theorem crawlLoop_found_inv (env : CrawlEnv) :
    ∀ (fuel : Nat) (st r : CrawlSt), crawlLoop env fuel st = some r →
      st.found_urls.Nodup → st.found_urls.length ≤ env.max_pages →
      r.found_urls.Nodup ∧ r.found_urls.length ≤ env.max_pages := by
  intro fuel
  induction fuel with
  | zero => intro st r h; cases h
  | succ n ih =>
    intro st r h h1 h2
    rw [crawlLoop] at h
    split at h
    · injection h with h
      subst h
      exact ⟨h1, h2⟩
    · rename_i current rest heq
      split at h
      · exact ih _ r h
          (crawlStep_found env { st with urls_to_visit := rest } current h1 h2).1
          (crawlStep_found env { st with urls_to_visit := rest } current h1 h2).2
      · injection h with h
        subst h
        exact ⟨h1, h2⟩

/-- For `max_pages ≥ 1`, the final crawl state's `found_urls` is
duplicate-free and at most `max_pages` long. -/
theorem crawlFinal_found (web : Url → Option (List Url))
    (urljoin : Url → Url → Url) (setList : List Url → List Url)
    (scraper : ScraperState) (root_url : Url)
    (hmp : 1 ≤ scraper.max_pages) :
    (crawlFinal web urljoin setList scraper root_url).found_urls.Nodup
      ∧ (crawlFinal web urljoin setList scraper root_url).found_urls.length ≤
        scraper.max_pages := by
  simp only [crawlFinal]
  cases h : crawlLoop (crawlEnv web urljoin setList scraper (normalize_url root_url))
      (crawlFuel scraper.max_pages)
      (initCrawlSt scraper.visited_urls (normalize_url root_url)) with
  | none =>
    refine ⟨by simp [initCrawlSt], ?_⟩
    simpa [initCrawlSt] using hmp
  | some r =>
    have hr := crawlLoop_found_inv _ _ _ r h (by simp [initCrawlSt])
      (by simpa [initCrawlSt, crawlEnv] using hmp)
    simpa [crawlEnv] using hr

/-- C1 (amended): for every `max_pages = N ≥ 1`, the discovered-URL list
returned by `crawl_site` has size at most `N` (and `found_urls` stays within
the quota throughout).  For `N = 0` the bound fails, because the root URL is
seeded into the discovered set before the loop's quota check runs (see the
counterexample). -/
theorem crawl_bound_max_pages :
    ∀ (web : Url → Option (List Url)) (urljoin : Url → Url → Url)
      (setList : List Url → List Url) (scraper : ScraperState)
      (root_url : Url),
      SetListOK setList → 1 ≤ scraper.max_pages →
      (crawl_site web urljoin setList scraper root_url).1.length ≤
        scraper.max_pages := by
  intro web urljoin setList scraper root_url hsl hmp
  have hfin := crawlFinal_found web urljoin setList scraper root_url hmp
  show (setList (crawlFinal web urljoin setList scraper root_url).found_urls).length ≤ _
  have hperm :
      (setList (crawlFinal web urljoin setList scraper root_url).found_urls).Perm
        (crawlFinal web urljoin setList scraper root_url).found_urls :=
    (List.perm_ext_iff_of_nodup (hsl _).1 hfin.1).mpr (hsl _).2
  rw [hperm.length_eq]
  exact hfin.2

/-- C1 witness: a concrete crawl with `max_pages = 1`. -/
theorem crawl_bound_max_pages_witness :
    SetListOK List.dedup ∧ 1 ≤ (initScraper 1 0).max_pages
      ∧ (crawl_site webTwoPages (fun _ h => h) List.dedup (initScraper 1 0)
            "b.co".data).1.length ≤ (initScraper 1 0).max_pages :=
  ⟨setListOK_dedup, by decide,
   crawl_bound_max_pages webTwoPages (fun _ h => h) List.dedup
     (initScraper 1 0) "b.co".data setListOK_dedup (by decide)⟩

/-- C1 counterexample to the claim as stated: with `max_pages = 0` the
crawl still returns the seeded root, so the discovered list has length
`1 > 0`. -/
theorem crawl_bound_zero_cex :
    ¬ ((crawl_site webTwoPages (fun _ h => h) List.dedup (initScraper 0 0)
          "b.co".data).1.length ≤ (initScraper 0 0).max_pages) := by
  decide

/-- Every URL reachable from the root lies in any link-closed superset of
the root. -/
theorem reach_subset_closed (env : CrawlEnv) (root : Url) (R : List Url)
    (hroot : root ∈ R)
    (hcl : ∀ u ∈ R, ∀ v ∈ outLinksEnv env u, v ∈ R) :
    ∀ u, Relation.ReflTransGen (crawlRel env) root u → u ∈ R := by
  intro u h
  induction h with
  | refl => exact hroot
  | tail h1 h2 ih => exact hcl _ ih _ h2

/-- The link-adding loop appends one common list (the newly discovered
links, a subset of the input links) to both `found_urls` and the frontier,
and touches nothing else. -/
theorem addLinks_decomp (env : CrawlEnv) :
    ∀ (links : List Url) (st : CrawlSt), ∃ added : List Url,
      (addLinks env links st).found_urls = st.found_urls ++ added
      ∧ (addLinks env links st).urls_to_visit = st.urls_to_visit ++ added
      ∧ (addLinks env links st).visited_urls = st.visited_urls
      ∧ (addLinks env links st).fetch_log = st.fetch_log
      ∧ added ⊆ links := by
  intro links
  induction links with
  | nil => intro st; exact ⟨[], by simp [addLinks]⟩
  | cons l ls ih =>
    intro st
    rw [addLinks]
    by_cases hc : l ∉ st.found_urls ∧ st.found_urls.length < env.max_pages
    · rw [if_pos hc]
      obtain ⟨ad, h1, h2, h3, h4, h5⟩ :=
        ih { st with found_urls := st.found_urls ++ [l]
                     urls_to_visit := st.urls_to_visit ++ [l] }
      exact ⟨l :: ad, by simpa using h1, by simpa using h2, h3, h4,
        by
          intro x hx
          rcases List.mem_cons.mp hx with h | h
          · exact h ▸ List.mem_cons_self l ls
          · exact List.mem_cons_of_mem l (h5 h)⟩
    · rw [if_neg hc]
      obtain ⟨ad, h1, h2, h3, h4, h5⟩ := ih st
      exact ⟨ad, h1, h2, h3, h4, fun x hx => List.mem_cons_of_mem l (h5 hx)⟩

/-- When the discovered set stays inside a set `R` smaller than the quota,
the quota guard never bites: every offered link ends up discovered. -/
theorem addLinks_complete (env : CrawlEnv) (R : List Url)
    (hRn : R.Nodup) (hsize : R.length < env.max_pages) :
    ∀ (links : List Url) (st : CrawlSt), st.found_urls.Nodup →
      (∀ u ∈ st.found_urls, u ∈ R) → (∀ v ∈ links, v ∈ R) →
      ∀ v ∈ links, v ∈ (addLinks env links st).found_urls := by
  intro links
  induction links with
  | nil => intro st _ _ _ v hv; cases hv
  | cons l ls ih =>
    intro st hnd hfR hlR v hv
    rw [addLinks]
    by_cases hc : l ∉ st.found_urls ∧ st.found_urls.length < env.max_pages
    · rw [if_pos hc]
      rcases List.mem_cons.mp hv with hveq | hvm
      · subst hveq
        obtain ⟨ad, h1, _, _, _, _⟩ := addLinks_decomp env ls
          { st with found_urls := st.found_urls ++ [v]
                    urls_to_visit := st.urls_to_visit ++ [v] }
        rw [h1]
        simp
      · refine ih _ ?_ ?_ ?_ v hvm
        · simpa [List.nodup_append] using ⟨hnd, hc.1⟩
        · intro u hu
          rcases List.mem_append.mp hu with h | h
          · exact hfR u h
          · rcases List.mem_singleton.mp h with rfl
            exact hlR u (List.mem_cons_self _ _)
        · exact fun w hw => hlR w (List.mem_cons_of_mem l hw)
    · rw [if_neg hc]
      rcases List.mem_cons.mp hv with hveq | hvm
      · subst hveq
        have hmem : v ∈ st.found_urls := by
          by_contra hnm
          exact hc ⟨hnm, Nat.lt_of_le_of_lt
            ((List.subperm_of_subset hnd hfR).length_le) hsize⟩
        obtain ⟨ad, h1, _, _, _, _⟩ := addLinks_decomp env ls st
        rw [h1]
        exact List.mem_append_left _ hmem
      · exact ih st hnd hfR (fun w hw => hlR w (List.mem_cons_of_mem l hw)) v hvm

/-- Invariant preservation for one crawl iteration on a clean-started crawl
with every fetch succeeding and the reachable set bounded by `R` below the
quota; the loop measure decreases by exactly one. -/
theorem crawlStepC2 (env : CrawlEnv) (root : Url) (R : List Url)
    (hweb : ∀ u, (env.web u).isSome)
    (hRn : R.Nodup)
    (hcl : ∀ u ∈ R, ∀ v ∈ outLinksEnv env u, v ∈ R)
    (hrootR : root ∈ R) (hsize : R.length < env.max_pages)
    (st : CrawlSt) (current : Url) (rest : List Url)
    (hfront : st.urls_to_visit = current :: rest)
    (hinv : CrawlInv env root st) :
    CrawlInv env root (crawlStep env { st with urls_to_visit := rest } current)
    ∧ (crawlStep env { st with urls_to_visit := rest } current).urls_to_visit.length
        + (env.max_pages -
            (crawlStep env { st with urls_to_visit := rest } current).found_urls.length)
        + 1
      = st.urls_to_visit.length + (env.max_pages - st.found_urls.length) := by
  obtain ⟨h1, h2, h3, h4, h5, h6, h7, h8, h9, h10⟩ := hinv
  have hcur : current ∈ st.urls_to_visit := hfront ▸ List.mem_cons_self _ _
  have hcurf : current ∈ st.found_urls := h3 current hcur
  have hnv : current ∉ st.visited_urls := fun hv => (h4 current hv).1 hcur
  obtain ⟨hrefs, hhre⟩ := Option.isSome_iff_exists.mp (hweb current)
  have hout : extract_links env hrefs current = outLinksEnv env current := by
    simp [outLinksEnv, hhre]
  have hfR : ∀ u ∈ st.found_urls, u ∈ R := fun u hu =>
    reach_subset_closed env root R hrootR hcl u (h5 u hu)
  have hlen : st.found_urls.length < env.max_pages :=
    Nat.lt_of_le_of_lt (List.subperm_of_subset h1 hfR).length_le hsize
  have hrestnd : rest.Nodup := by
    rw [hfront] at h2; exact (List.nodup_cons.mp h2).2
  have hcrest : current ∉ rest := by
    rw [hfront] at h2; exact (List.nodup_cons.mp h2).1
  have hrestf : ∀ u ∈ rest, u ∈ st.found_urls := fun u hu =>
    h3 u (hfront ▸ List.mem_cons_of_mem _ hu)
  have hstep : crawlStep env { st with urls_to_visit := rest } current
      = addLinks env (outLinksEnv env current)
          { urls_to_visit := rest, found_urls := st.found_urls,
            visited_urls := st.visited_urls ++ [current],
            fetch_log := st.fetch_log ++ [current] } := by
    simp [crawlStep, hhre, hnv, hout]
  rw [hstep]
  obtain ⟨added, ha1, ha2, ha3, ha4, ha5⟩ :=
    addLinks_decomp env (outLinksEnv env current)
      { urls_to_visit := rest, found_urls := st.found_urls,
        visited_urls := st.visited_urls ++ [current],
        fetch_log := st.fetch_log ++ [current] }
  have hfnd := addLinks_found env (outLinksEnv env current)
      { urls_to_visit := rest, found_urls := st.found_urls,
        visited_urls := st.visited_urls ++ [current],
        fetch_log := st.fetch_log ++ [current] }
      h1 (Nat.le_of_lt hlen)
  have hfnd1 : (st.found_urls ++ added).Nodup := ha1 ▸ hfnd.1
  have hfnd2 : (st.found_urls ++ added).length ≤ env.max_pages := ha1 ▸ hfnd.2
  have hdisj : ∀ x ∈ added, x ∉ st.found_urls := by
    intro x hx hxf
    exact (List.nodup_append.mp hfnd1).2.2 hxf hx
  have haddnd : added.Nodup := (List.nodup_append.mp hfnd1).2.1
  have hcompl : ∀ v ∈ outLinksEnv env current,
      v ∈ (addLinks env (outLinksEnv env current)
        { urls_to_visit := rest, found_urls := st.found_urls,
          visited_urls := st.visited_urls ++ [current],
          fetch_log := st.fetch_log ++ [current] }).found_urls :=
    addLinks_complete env R hRn hsize (outLinksEnv env current) _ h1 hfR
      (fun v hv => hcl current (hfR current hcurf) v hv)
  constructor
  · refine ⟨?_, ?_, ?_, ?_, ?_, ?_, ?_, ?_, ?_, ?_⟩
    · exact hfnd.1
    · rw [ha2]
      rw [List.nodup_append]
      exact ⟨hrestnd, haddnd, fun x hx hxa => hdisj x hxa (hrestf x hx)⟩
    · intro u hu
      rw [ha2] at hu
      rw [ha1]
      rcases List.mem_append.mp hu with h | h
      · exact List.mem_append_left _ (hrestf u h)
      · exact List.mem_append_right _ h
    · intro u hu
      rw [ha3] at hu
      rw [ha1, ha2]
      rcases List.mem_append.mp hu with h | h
      · have h4u := h4 u h
        refine ⟨?_, List.mem_append_left _ h4u.2⟩
        intro hcon
        rcases List.mem_append.mp hcon with hc | hc
        · exact h4u.1 (hfront ▸ List.mem_cons_of_mem _ hc)
        · exact hdisj u hc h4u.2
      · rcases List.mem_singleton.mp h with rfl
        refine ⟨?_, List.mem_append_left _ hcurf⟩
        intro hcon
        rcases List.mem_append.mp hcon with hc | hc
        · exact hcrest hc
        · exact hdisj u hc hcurf
    · intro u hu
      rw [ha1] at hu
      rcases List.mem_append.mp hu with h | h
      · exact h5 u h
      · exact Relation.ReflTransGen.tail (h5 current hcurf) (ha5 h)
    · intro u hu
      rw [ha1] at hu
      rw [ha2, ha3]
      rcases List.mem_append.mp hu with h | h
      · rcases h6 u h with h6u | h6u
        · rw [hfront] at h6u
          rcases List.mem_cons.mp h6u with rfl | hur
          · refine Or.inr ⟨List.mem_append_right _ (List.mem_singleton_self _), ?_⟩
            intro v hv
            exact hcompl v hv
          · exact Or.inl (List.mem_append_left _ hur)
        · refine Or.inr ⟨List.mem_append_left _ h6u.1, ?_⟩
          intro v hv
          rw [ha1]
          exact List.mem_append_left _ (h6u.2 v hv)
      · exact Or.inl (List.mem_append_right _ h)
    · rw [ha1]
      exact List.mem_append_left _ h7
    · rw [ha4]
      rw [List.nodup_append]
      refine ⟨h8, List.nodup_singleton _, ?_⟩
      intro x hx hxc
      rcases List.mem_singleton.mp hxc with rfl
      exact h10 x hx hcur
    · intro u hu
      rw [ha4] at hu
      rw [ha1]
      rcases List.mem_append.mp hu with h | h
      · exact List.mem_append_left _ (h9 u h)
      · rcases List.mem_singleton.mp h with rfl
        exact List.mem_append_left _ hcurf
    · intro u hu
      rw [ha4] at hu
      rw [ha2]
      rcases List.mem_append.mp hu with h | h
      · intro hcon
        rcases List.mem_append.mp hcon with hc | hc
        · exact h10 u h (hfront ▸ List.mem_cons_of_mem _ hc)
        · exact hdisj u hc (h9 u h)
      · rcases List.mem_singleton.mp h with rfl
        intro hcon
        rcases List.mem_append.mp hcon with hc | hc
        · exact hcrest hc
        · exact hdisj u hc hcurf
  · rw [ha1, ha2, hfront]
    simp only [List.length_append, List.length_cons]
    have hfa : st.found_urls.length + added.length ≤ env.max_pages := by
      simpa using hfnd2
    omega

/-- The crawl loop, started with enough fuel and the invariant, terminates
(within fuel) with the invariant and an exhausted frontier. -/
theorem crawlLoopC2 (env : CrawlEnv) (root : Url) (R : List Url)
    (hweb : ∀ u, (env.web u).isSome)
    (hRn : R.Nodup)
    (hcl : ∀ u ∈ R, ∀ v ∈ outLinksEnv env u, v ∈ R)
    (hrootR : root ∈ R) (hsize : R.length < env.max_pages) :
    ∀ (fuel : Nat) (st : CrawlSt), CrawlInv env root st →
      st.urls_to_visit.length + (env.max_pages - st.found_urls.length) < fuel →
      ∃ r, crawlLoop env fuel st = some r ∧ CrawlInv env root r
        ∧ r.urls_to_visit = [] := by
  intro fuel
  induction fuel with
  | zero => intro st _ hm; omega
  | succ n ih =>
    intro st hinv hm
    rw [crawlLoop]
    cases hf : st.urls_to_visit with
    | nil => exact ⟨st, rfl, hinv, hf⟩
    | cons current rest =>
      have hfR : ∀ u ∈ st.found_urls, u ∈ R := fun u hu =>
        reach_subset_closed env root R hrootR hcl u (hinv.2.2.2.2.1 u hu)
      have hlt : st.found_urls.length < env.max_pages :=
        Nat.lt_of_le_of_lt (List.subperm_of_subset hinv.1 hfR).length_le hsize
      show ∃ r, (if st.found_urls.length < env.max_pages then
          crawlLoop env n (crawlStep env { st with urls_to_visit := rest } current)
        else some st) = some r ∧ CrawlInv env root r ∧ r.urls_to_visit = []
      rw [if_pos hlt]
      have hsc := crawlStepC2 env root R hweb hRn hcl hrootR hsize st current
        rest hf hinv
      refine ih _ hsc.1 ?_
      have hm2 := hsc.2
      rw [hf] at hm hm2
      simp only [List.length_cons] at hm hm2
      omega

/-- C2: on a fresh crawl (empty visited set) where every fetch succeeds and
the pages reachable from the normalized root lie in a duplicate-free
link-closed set `R` with `|R| < max_pages`: the crawl loop terminates (it is
not stuck on cyclic links), no URL is fetched twice during the crawl phase
(the ghost fetch log is duplicate-free), and the discovered list returned by
`crawl_site` holds exactly the URLs reachable from the root. -/
theorem crawl_reaches_all :
    ∀ (web : Url → Option (List Url)) (urljoin : Url → Url → Url)
      (setList : List Url → List Url) (scraper : ScraperState)
      (root_url : Url) (R : List Url),
      SetListOK setList →
      scraper.visited_urls = [] →
      (∀ u, (web u).isSome) →
      R.Nodup →
      normalize_url root_url ∈ R →
      (∀ u ∈ R,
        ∀ v ∈ outLinksEnv
            (crawlEnv web urljoin setList scraper (normalize_url root_url)) u,
          v ∈ R) →
      R.length < scraper.max_pages →
      (crawlLoop (crawlEnv web urljoin setList scraper (normalize_url root_url))
          (crawlFuel scraper.max_pages)
          (initCrawlSt scraper.visited_urls (normalize_url root_url))).isSome
      ∧ (crawlFinal web urljoin setList scraper root_url).fetch_log.Nodup
      ∧ (∀ u, u ∈ (crawl_site web urljoin setList scraper root_url).1 ↔
          Relation.ReflTransGen
            (crawlRel (crawlEnv web urljoin setList scraper (normalize_url root_url)))
            (normalize_url root_url) u) := by
  intro web urljoin setList scraper root_url R hsl hvis hweb hRn hrootR hcl hsize
  have hinv0 : CrawlInv (crawlEnv web urljoin setList scraper (normalize_url root_url))
      (normalize_url root_url)
      (initCrawlSt scraper.visited_urls (normalize_url root_url)) := by
    rw [hvis]
    exact ⟨List.nodup_singleton _, List.nodup_singleton _,
      fun u hu => hu,
      fun u hu => absurd hu (List.not_mem_nil u),
      fun u hu => by
        rcases List.mem_singleton.mp hu with rfl
        exact Relation.ReflTransGen.refl,
      fun u hu => Or.inl hu,
      List.mem_singleton_self _,
      List.nodup_nil,
      fun u hu => absurd hu (List.not_mem_nil u),
      fun u hu => absurd hu (List.not_mem_nil u)⟩
  have hm0 : (initCrawlSt scraper.visited_urls (normalize_url root_url)).urls_to_visit.length
      + ((crawlEnv web urljoin setList scraper (normalize_url root_url)).max_pages
        - (initCrawlSt scraper.visited_urls (normalize_url root_url)).found_urls.length)
      < crawlFuel scraper.max_pages := by
    simp only [initCrawlSt, crawlEnv, crawlFuel, List.length_singleton]
    omega
  obtain ⟨r, hr, hrinv, hrempty⟩ :=
    crawlLoopC2 (crawlEnv web urljoin setList scraper (normalize_url root_url))
      (normalize_url root_url) R hweb hRn hcl hrootR hsize
      (crawlFuel scraper.max_pages)
      (initCrawlSt scraper.visited_urls (normalize_url root_url)) hinv0 hm0
  have hcf : crawlFinal web urljoin setList scraper root_url = r := by
    simp only [crawlFinal]
    rw [hr]
    rfl
  obtain ⟨g1, g2, g3, g4, g5, g6, g7, g8, g9, g10⟩ := hrinv
  refine ⟨?_, ?_, ?_⟩
  · rw [hr]; rfl
  · rw [hcf]; exact g8
  · intro u
    show u ∈ setList (crawlFinal web urljoin setList scraper root_url).found_urls ↔ _
    rw [hcf]
    refine Iff.trans ((hsl _).2 u) ⟨fun h => g5 u h, fun h => ?_⟩
    have hclosedf : ∀ w ∈ r.found_urls,
        ∀ v ∈ outLinksEnv (crawlEnv web urljoin setList scraper (normalize_url root_url)) w,
          v ∈ r.found_urls := by
      intro w hw v hv
      rcases g6 w hw with hcase | hcase
      · rw [hrempty] at hcase; cases hcase
      · exact hcase.2 v hv
    exact reach_subset_closed _ _ r.found_urls g7 hclosedf u h

/-- C2 witness: the cyclic three-page site `webCyc` (root ↔ /a, both → /b)
with `max_pages = 4`. -/
theorem crawl_reaches_all_witness :
    SetListOK List.dedup
    ∧ reachCyc.Nodup
    ∧ normalize_url "a.co".data ∈ reachCyc
    ∧ reachCyc.length < (initScraper 4 0).max_pages
    ∧ ((crawlLoop (crawlEnv webCyc (fun _ h => h) List.dedup (initScraper 4 0)
            (normalize_url "a.co".data))
          (crawlFuel (initScraper 4 0).max_pages)
          (initCrawlSt (initScraper 4 0).visited_urls
            (normalize_url "a.co".data))).isSome
      ∧ (crawlFinal webCyc (fun _ h => h) List.dedup (initScraper 4 0)
          "a.co".data).fetch_log.Nodup
      ∧ (∀ u, u ∈ (crawl_site webCyc (fun _ h => h) List.dedup
            (initScraper 4 0) "a.co".data).1 ↔
          Relation.ReflTransGen
            (crawlRel (crawlEnv webCyc (fun _ h => h) List.dedup
              (initScraper 4 0) (normalize_url "a.co".data)))
            (normalize_url "a.co".data) u)) :=
  ⟨setListOK_dedup, by decide, by decide, by decide,
   crawl_reaches_all webCyc (fun _ h => h) List.dedup (initScraper 4 0)
     "a.co".data reachCyc setListOK_dedup rfl (fun u => rfl) (by decide)
     (by decide) (by decide) (by decide)⟩

/-- `splitFirst` finds nothing when the separator is absent. -/
theorem splitFirst_of_not_mem (sep : Char) (l : List Char) (h : sep ∉ l) :
    splitFirst sep l = (l, none) := by
  induction l with
  | nil => rfl
  | cons c cs ih =>
    rw [splitFirst]
    rw [if_neg (fun hc : c = sep => h (hc ▸ List.mem_cons_self c cs))]
    rw [ih (fun hm => h (List.mem_cons_of_mem c hm))]

/-- `splitFirst` splits at the first separator occurrence. -/
theorem splitFirst_append (sep : Char) (a b : List Char) (h : sep ∉ a) :
    splitFirst sep (a ++ sep :: b) = (a, some b) := by
  induction a with
  | nil => simp [splitFirst]
  | cons c cs ih =>
    rw [List.cons_append, splitFirst]
    rw [if_neg (fun hc : c = sep => h (hc ▸ List.mem_cons_self c cs))]
    rw [ih (fun hm => h (List.mem_cons_of_mem c hm))]

/-- The part before the first separator does not contain it. -/
theorem splitFirst_fst_not_mem (sep : Char) (l : List Char) :
    sep ∉ (splitFirst sep l).1 := by
  induction l with
  | nil => simp [splitFirst]
  | cons c cs ih =>
    rw [splitFirst]
    by_cases hc : c = sep
    · rw [if_pos hc]; simp
    · rw [if_neg hc]
      intro hmem
      rcases List.mem_cons.mp hmem with h | h
      · exact hc h.symm
      · exact ih h

/-- The part before the first separator is a prefix of the input. -/
theorem splitFirst_fst_prefix (sep : Char) (l : List Char) :
    (splitFirst sep l).1 <+: l := by
  induction l with
  | nil => simp [splitFirst]
  | cons c cs ih =>
    rw [splitFirst]
    by_cases hc : c = sep
    · rw [if_pos hc]; exact List.nil_prefix
    · rw [if_neg hc]
      obtain ⟨t, ht⟩ := ih
      exact ⟨t, by simpa using ht⟩

/-- When `splitFirst` finds the separator, the input decomposes around
it. -/
theorem splitFirst_snd_decomp (sep : Char) (l r : List Char)
    (h : (splitFirst sep l).2 = some r) :
    l = (splitFirst sep l).1 ++ sep :: r := by
  induction l with
  | nil => simp [splitFirst] at h
  | cons c cs ih =>
    rw [splitFirst] at h ⊢
    by_cases hc : c = sep
    · rw [if_pos hc] at h ⊢
      injection h with h
      simp [hc, h]
    · rw [if_neg hc] at h ⊢
      have := ih h
      simp only [List.cons_append]
      exact congrArg (c :: ·) this

/-- `takeWhile` walks through a block that satisfies the predicate. -/
theorem takeWhile_append_all (p : Char → Bool) (a b : List Char)
    (h : ∀ c ∈ a, p c = true) :
    (a ++ b).takeWhile p = a ++ b.takeWhile p := by
  induction a with
  | nil => rfl
  | cons c cs ih =>
    rw [List.cons_append, List.takeWhile_cons, h c (List.mem_cons_self c cs)]
    rw [ih (fun x hx => h x (List.mem_cons_of_mem c hx))]
    rfl

/-- `dropWhile` drops a block that satisfies the predicate. -/
theorem dropWhile_append_all (p : Char → Bool) (a b : List Char)
    (h : ∀ c ∈ a, p c = true) :
    (a ++ b).dropWhile p = b.dropWhile p := by
  induction a with
  | nil => rfl
  | cons c cs ih =>
    rw [List.cons_append, List.dropWhile_cons, h c (List.mem_cons_self c cs)]
    rw [ih (fun x hx => h x (List.mem_cons_of_mem c hx))]
    rfl

/-- A nonempty prefix has the head of the whole list. -/
theorem prefix_head_eq (l₁ l₂ : List Char) (h : l₁ <+: l₂) (hne : l₁ ≠ []) :
    l₁.head? = l₂.head? := by
  obtain ⟨t, rfl⟩ := h
  cases l₁ with
  | nil => exact absurd rfl hne
  | cons c cs => rfl

/-- `dropWhile` yields nothing, or a list whose head fails the
predicate. -/
theorem dropWhile_head_cases (p : Char → Bool) (l : List Char) :
    l.dropWhile p = [] ∨
      ∃ c cs, l.dropWhile p = c :: cs ∧ p c = false := by
  induction l with
  | nil => exact Or.inl rfl
  | cons c cs ih =>
    rw [List.dropWhile_cons]
    by_cases hc : p c = true
    · rw [if_pos hc]; exact ih
    · rw [if_neg hc]
      exact Or.inr ⟨c, cs, rfl, Bool.not_eq_true _ ▸ (by simpa using hc)⟩

/-- `dropWhile` is idempotent. -/
theorem dropWhile_idem (p : Char → Bool) (l : List Char) :
    (l.dropWhile p).dropWhile p = l.dropWhile p := by
  rcases dropWhile_head_cases p l with h | ⟨c, cs, h, hc⟩
  · rw [h]; rfl
  · rw [h, List.dropWhile_cons, if_neg (by simp [hc])]

/-- Stripping trailing slashes yields a prefix. -/
theorem rstripSlash_prefix_self (l : List Char) : rstripSlash l <+: l := by
  refine ⟨(l.reverse.takeWhile (fun c => c = '/')).reverse, ?_⟩
  rw [rstripSlash]
  rw [← List.reverse_append, List.takeWhile_append_dropWhile, List.reverse_reverse]

/-- Stripping trailing slashes is idempotent. -/
theorem rstripSlash_idem (l : List Char) :
    rstripSlash (rstripSlash l) = rstripSlash l := by
  rw [rstripSlash, rstripSlash, List.reverse_reverse, dropWhile_idem]

/-- Members of the stripped list are members of the original. -/
theorem mem_rstripSlash (l : List Char) (x : Char) (h : x ∈ rstripSlash l) :
    x ∈ l := by
  obtain ⟨t, ht⟩ := rstripSlash_prefix_self l
  rw [← ht]
  exact List.mem_append_left _ h

/-- ASCII lowercasing never produces a netloc stop character. -/
theorem notStop_lowerChar (c : Char) (h : notStop c = true) :
    notStop (lowerChar c) = true := by
  unfold lowerChar
  by_cases hc : 65 ≤ c.toNat ∧ c.toNat ≤ 90
  · rw [if_pos hc]
    obtain ⟨h1, h2⟩ := hc
    interval_cases h3 : c.toNat <;> decide
  · rw [if_neg hc]; exact h

/-- ASCII lowercasing a character is idempotent. -/
theorem lowerChar_idem (c : Char) : lowerChar (lowerChar c) = lowerChar c := by
  by_cases hc : 65 ≤ c.toNat ∧ c.toNat ≤ 90
  · have he : lowerChar c = Char.ofNat (c.toNat + 32) := by
      unfold lowerChar; rw [if_pos hc]
    rw [he]
    obtain ⟨h1, h2⟩ := hc
    interval_cases h3 : c.toNat <;> decide
  · have he : lowerChar c = c := by
      unfold lowerChar; rw [if_neg hc]
    rw [he]
    exact he

/-- ASCII lowercasing a string is idempotent. -/
theorem lowerChars_idem (l : List Char) :
    lowerChars (lowerChars l) = lowerChars l := by
  simp only [lowerChars, List.map_map]
  exact List.map_congr_left (fun x _ => lowerChar_idem x)

/-- Lowercasing preserves freedom from netloc stop characters. -/
theorem lowerChars_notStop (n : List Char) (h : ∀ c ∈ n, notStop c = true) :
    ∀ c ∈ lowerChars n, notStop c = true := by
  intro c hc
  obtain ⟨x, hx, rfl⟩ := List.mem_map.mp hc
  exact notStop_lowerChar x (h x hx)

/-- Scheme splitting on a well-formed `scheme:`-headed URL. -/
theorem splitScheme_cons (c : Char) (cs rest : List Char)
    (hcolon : ':' ∉ c :: cs) (halpha : c.isAlpha = true)
    (hall : (c :: cs).all isSchemeChar = true)
    (hlower : (c :: cs).map lowerChar = c :: cs) :
    splitScheme ((c :: cs) ++ ':' :: rest) = (c :: cs, rest) := by
  unfold splitScheme
  rw [splitFirst_append ':' (c :: cs) rest hcolon]
  show (if c.isAlpha = true ∧ (c :: cs).all isSchemeChar = true
      then ((c :: cs).map lowerChar, rest)
      else ([], (c :: cs) ++ ':' :: rest)) = (c :: cs, rest)
  rw [if_pos ⟨halpha, hall⟩, hlower]

/-- Scheme splitting for `http` and `https`. -/
theorem splitScheme_http (s rest : List Char)
    (hS : s = ['h', 't', 't', 'p'] ∨ s = ['h', 't', 't', 'p', 's']) :
    splitScheme (s ++ ':' :: rest) = (s, rest) := by
  rcases hS with rfl | rfl
  · exact splitScheme_cons 'h' ['t', 't', 'p'] rest (by decide) (by decide)
      (by decide) (by decide)
  · exact splitScheme_cons 'h' ['t', 't', 'p', 's'] rest (by decide) (by decide)
      (by decide) (by decide)

/-- Netloc splitting after `//`. -/
theorem splitNetloc_slashes (t : List Char) :
    splitNetloc ('/' :: '/' :: t) = (t.takeWhile notStop, t.dropWhile notStop) :=
  rfl

/-- Splitting off an optional `sep`-headed tail recovers its parts. -/
theorem splitTail_iftail (sep : Char) (a t : List Char) (ha : sep ∉ a) :
    splitTail sep (a ++ (if t = [] then [] else sep :: t)) = (a, t) := by
  by_cases ht : t = []
  · subst ht
    rw [if_pos rfl, List.append_nil]
    unfold splitTail
    rw [splitFirst_of_not_mem sep a ha]
  · rw [if_neg ht]
    unfold splitTail
    rw [splitFirst_append sep a t ha]

/-- Params splitting is the identity without a semicolon. -/
theorem splitParams_no_semi (l : List Char) (h : ';' ∉ l) :
    splitParams l = (l, []) := by
  unfold splitParams
  rw [if_neg h]

/-- Closed form of `urlunparse` for parts with a nonempty netloc, a
slash-headed path and no params. -/
theorem urlunparse_shape (s n pt q f : List Char) (hs : s ≠ []) (hn : n ≠ []) :
    urlunparse ⟨s, n, '/' :: pt, [], q, f⟩ =
      s ++ ':' :: '/' :: '/' ::
        (n ++ '/' :: (pt ++ ((if q = [] then [] else '?' :: q)
          ++ (if f = [] then [] else '#' :: f)))) := by
  simp only [urlunparse]
  by_cases hq : q = [] <;> by_cases hf : f = [] <;>
    simp [hq, hf, hn, hs, List.append_assoc]

/-- Parsing an unparsed well-formed, params-free URL recovers its parts. -/
theorem urlparse_unparse (s n pt q f : List Char)
    (hS : s = ['h', 't', 't', 'p'] ∨ s = ['h', 't', 't', 'p', 's'])
    (hn : n ≠ []) (hns : ∀ c ∈ n, notStop c = true)
    (hpf : '#' ∉ '/' :: pt) (hpq : '?' ∉ '/' :: pt) (hps : ';' ∉ '/' :: pt)
    (hqf : '#' ∉ q) :
    urlparse (urlunparse ⟨s, n, '/' :: pt, [], q, f⟩) =
      ⟨s, n, '/' :: pt, [], q, f⟩ := by
  have hs : s ≠ [] := by rcases hS with rfl | rfl <;> decide
  rw [urlunparse_shape s n pt q f hs hn]
  set Qif := (if q = [] then [] else '?' :: q) with hQ
  set Fif := (if f = [] then [] else '#' :: f) with hF
  have hQ1 : '#' ∉ Qif := by
    rw [hQ]
    split
    · simp
    · intro hmem
      rcases List.mem_cons.mp hmem with h | h
      · exact absurd h (by decide)
      · exact hqf h
  have e1 : splitScheme (s ++ ':' :: ('/' :: '/' :: (n ++ '/' :: (pt ++ (Qif ++ Fif)))))
      = (s, '/' :: '/' :: (n ++ '/' :: (pt ++ (Qif ++ Fif)))) :=
    splitScheme_http _ _ hS
  have e2 : splitNetloc ('/' :: '/' :: (n ++ '/' :: (pt ++ (Qif ++ Fif))))
      = (n, '/' :: (pt ++ (Qif ++ Fif))) := by
    rw [splitNetloc_slashes]
    rw [takeWhile_append_all notStop n _ hns, dropWhile_append_all notStop n _ hns]
    simp [List.takeWhile_cons, List.dropWhile_cons, notStop]
  have hrw3 : '/' :: (pt ++ (Qif ++ Fif)) = ('/' :: (pt ++ Qif)) ++ Fif := by
    simp [List.append_assoc]
  have e3 : splitTail '#' ('/' :: (pt ++ (Qif ++ Fif))) = ('/' :: (pt ++ Qif), f) := by
    rw [hrw3, hF]
    apply splitTail_iftail
    intro hmem
    rcases List.mem_cons.mp hmem with h | h
    · exact absurd h (by decide)
    · rcases List.mem_append.mp h with h | h
      · exact hpf (List.mem_cons_of_mem _ h)
      · exact hQ1 h
  have e4 : splitTail '?' ('/' :: (pt ++ Qif)) = ('/' :: pt, q) := by
    have hrw4 : '/' :: (pt ++ Qif) = ('/' :: pt) ++ Qif := rfl
    rw [hrw4, hQ]
    exact splitTail_iftail '?' ('/' :: pt) q hpq
  have e5 : splitParams ('/' :: pt) = ('/' :: pt, []) := splitParams_no_semi _ hps
  simp only [urlparse]
  rw [e1]
  dsimp only
  rw [e2]
  dsimp only
  rw [e3]
  dsimp only
  rw [e4]
  dsimp only
  rw [if_pos (show usesParams s = true by rcases hS with rfl | rfl <;> decide)]
  rw [e5]

/-- The first component of `splitTail` is that of `splitFirst`. -/
theorem splitTail_fst_eq (sep : Char) (l : List Char) :
    (splitTail sep l).1 = (splitFirst sep l).1 := by
  unfold splitTail
  rcases h : splitFirst sep l with ⟨fst, snd⟩
  cases snd <;> simp

/-- The part before the separator of `splitTail` does not contain it. -/
theorem splitTail_fst_not_mem (sep : Char) (l : List Char) :
    sep ∉ (splitTail sep l).1 := by
  rw [splitTail_fst_eq]; exact splitFirst_fst_not_mem sep l

/-- The part before the separator of `splitTail` is a prefix. -/
theorem splitTail_fst_prefix (sep : Char) (l : List Char) :
    (splitTail sep l).1 <+: l := by
  rw [splitTail_fst_eq]; exact splitFirst_fst_prefix sep l

/-- The tail produced by `splitTail` consists of input characters. -/
theorem splitTail_snd_subset (sep : Char) (l : List Char) :
    ∀ x ∈ (splitTail sep l).2, x ∈ l := by
  unfold splitTail
  rcases h : splitFirst sep l with ⟨fst, snd⟩
  cases snd with
  | none => simp
  | some r =>
    intro x hx
    simp only at hx
    have hd := splitFirst_snd_decomp sep l r (by rw [h])
    rw [hd]
    exact List.mem_append_right _ (List.mem_cons_of_mem _ hx)

/-- A list is its last-segment split recombined. -/
theorem dropLastSeg_append_lastSeg (l : List Char) :
    dropLastSeg l ++ lastSeg l = l := by
  rw [dropLastSeg, lastSeg, ← List.reverse_append,
    List.takeWhile_append_dropWhile, List.reverse_reverse]

/-- The last segment contains no slash. -/
theorem lastSeg_no_slash (l : List Char) : '/' ∉ lastSeg l := by
  intro h
  rw [lastSeg] at h
  rw [List.mem_reverse] at h
  have := List.mem_takeWhile_imp h
  simp at this

/-- Members of the last segment are members of the list. -/
theorem mem_lastSeg (l : List Char) (x : Char) (h : x ∈ lastSeg l) : x ∈ l := by
  rw [← dropLastSeg_append_lastSeg l]
  exact List.mem_append_right _ h

/-- Members of the pre-last-segment part are members of the list. -/
theorem mem_dropLastSeg (l : List Char) (x : Char) (h : x ∈ dropLastSeg l) :
    x ∈ l := by
  rw [← dropLastSeg_append_lastSeg l]
  exact List.mem_append_left _ h

/-- When the list contains a slash, the pre-last-segment part is
nonempty. -/
theorem dropLastSeg_ne_nil (l : List Char) (h : '/' ∈ l) :
    dropLastSeg l ≠ [] := by
  intro hcon
  rw [dropLastSeg] at hcon
  have h2 : l.reverse.dropWhile (fun c => !(c = '/')) = [] := by
    have := congrArg List.reverse hcon
    simpa using this
  rw [List.dropWhile_eq_nil_iff] at h2
  have := h2 '/' (List.mem_reverse.mpr h)
  simp at this

/-- The pre-last-segment part is a prefix. -/
theorem dropLastSeg_prefix_self (l : List Char) : dropLastSeg l <+: l :=
  ⟨lastSeg l, dropLastSeg_append_lastSeg l⟩

/-- The path part produced by params splitting consists of input
characters. -/
theorem splitParams_fst_subset (l : List Char) :
    ∀ x ∈ (splitParams l).1, x ∈ l := by
  unfold splitParams
  split
  · unfold splitParamsCore
    split
    · rcases h : splitFirst ';' (lastSeg l) with ⟨s1, snd⟩
      cases snd with
      | none => simp
      | some ps =>
        intro x hx
        simp only at hx
        rcases List.mem_append.mp hx with hm | hm
        · exact mem_dropLastSeg l x hm
        · refine mem_lastSeg l x ?_
          have hpre : s1 <+: lastSeg l := by
            have := splitFirst_fst_prefix ';' (lastSeg l)
            rwa [h] at this
          exact hpre.subset hm
    · rcases h : splitFirst ';' l with ⟨s1, snd⟩
      cases snd with
      | none => simp
      | some ps =>
        intro x hx
        simp only at hx
        have hpre : s1 <+: l := by
          have := splitFirst_fst_prefix ';' l
          rwa [h] at this
        exact hpre.subset hx
  · simp

/-- Params splitting preserves a leading slash. -/
theorem splitParams_fst_head (l : List Char) (h : l.head? = some '/') :
    (splitParams l).1.head? = some '/' := by
  have hsl : '/' ∈ l := by
    cases l with
    | nil => cases h
    | cons a t =>
      injection h with h
      exact h ▸ List.mem_cons_self _ _
  unfold splitParams
  split
  · unfold splitParamsCore
    rw [if_pos hsl]
    rcases hsp : splitFirst ';' (lastSeg l) with ⟨s1, snd⟩
    cases snd with
    | none => simpa using h
    | some ps =>
      simp only
      rw [List.head?_append_of_ne_nil _ (dropLastSeg_ne_nil l hsl)]
      rw [prefix_head_eq _ _ (dropLastSeg_prefix_self l) (dropLastSeg_ne_nil l hsl)]
      exact h
  · exact h

/-- `withScheme` always yields `http://…` or `https://…`. -/
theorem withScheme_decomp (u : List Char) :
    ∃ S t, (S = ['h', 't', 't', 'p'] ∨ S = ['h', 't', 't', 'p', 's'])
      ∧ withScheme u = S ++ ':' :: '/' :: '/' :: t := by
  unfold withScheme hasHttpScheme
  by_cases h1 : "http://".data.isPrefixOf u = true
  · rw [if_pos (by simp [h1])]
    obtain ⟨t, ht⟩ := List.isPrefixOf_iff_prefix.mp h1
    exact ⟨['h', 't', 't', 'p'], t, Or.inl rfl, by rw [← ht]; rfl⟩
  · by_cases h2 : "https://".data.isPrefixOf u = true
    · rw [if_pos (by simp [h2])]
      obtain ⟨t, ht⟩ := List.isPrefixOf_iff_prefix.mp h2
      exact ⟨['h', 't', 't', 'p', 's'], t, Or.inr rfl, by rw [← ht]; rfl⟩
    · rw [if_neg (by simp [h1, h2])]
      exact ⟨['h', 't', 't', 'p', 's'], u, Or.inr rfl, rfl⟩

/-- Closed form of `urlparse` on a `scheme://…` URL. -/
theorem urlparse_SSlash (S t : List Char)
    (hS : S = ['h', 't', 't', 'p'] ∨ S = ['h', 't', 't', 'p', 's']) :
    urlparse (S ++ ':' :: '/' :: '/' :: t) =
      ⟨S, t.takeWhile notStop,
        (splitParams (splitTail '?' (splitTail '#' (t.dropWhile notStop)).1).1).1,
        (splitParams (splitTail '?' (splitTail '#' (t.dropWhile notStop)).1).1).2,
        (splitTail '?' (splitTail '#' (t.dropWhile notStop)).1).2,
        (splitTail '#' (t.dropWhile notStop)).2⟩ := by
  simp only [urlparse]
  rw [splitScheme_http S _ hS]
  dsimp only
  rw [if_pos (show usesParams S = true by rcases hS with rfl | rfl <;> decide)]
  rw [splitNetloc_slashes]

/-- A netloc stop character is `/`, `?` or `#`. -/
theorem not_notStop_cases (c : Char) (h : notStop c = false) :
    c = '/' ∨ c = '?' ∨ c = '#' := by
  simp only [notStop, Bool.not_eq_false', Bool.or_eq_true, decide_eq_true_eq] at h
  tauto

/-- The `rstrip('/') or '/'` path rewrite is idempotent. -/
theorem normPath_idem (p : List Char) : normPath (normPath p) = normPath p := by
  unfold normPath
  by_cases h : rstripSlash p = []
  · rw [if_pos h, if_pos (by decide)]
  · rw [if_neg h, if_neg (by rwa [rstripSlash_idem]), rstripSlash_idem]

/-- The rewritten path of a slash-headed (or empty) path starts with a
slash. -/
theorem normPath_head (p : List Char)
    (h : p = [] ∨ p.head? = some '/') :
    ∃ pt, normPath p = '/' :: pt := by
  unfold normPath
  by_cases hr : rstripSlash p = []
  · rw [if_pos hr]
    exact ⟨[], rfl⟩
  · rw [if_neg hr]
    have hpne : p ≠ [] := by
      intro hcon
      subst hcon
      exact hr rfl
    have hph : p.head? = some '/' := h.resolve_left hpne
    have := prefix_head_eq _ _ (rstripSlash_prefix_self p) hr
    rw [hph] at this
    cases hrp : rstripSlash p with
    | nil => exact absurd hrp hr
    | cons a l =>
      rw [hrp] at this
      injection this with this
      exact ⟨l, by rw [this]⟩

/-- Characters of the rewritten path are a slash or input characters. -/
theorem mem_normPath (p : List Char) (x : Char) (h : x ∈ normPath p) :
    x = '/' ∨ x ∈ p := by
  unfold normPath at h
  split at h
  · rcases List.mem_singleton.mp h with rfl
    exact Or.inl rfl
  · exact Or.inr (mem_rstripSlash p x h)

/-- A reassembled `http(s)://…` URL passes the scheme-prefix test. -/
theorem hasHttpScheme_shape (S X : List Char)
    (hS : S = ['h', 't', 't', 'p'] ∨ S = ['h', 't', 't', 'p', 's']) :
    hasHttpScheme (S ++ ':' :: '/' :: '/' :: X) = true := by
  rcases hS with rfl | rfl
  · show hasHttpScheme ('h' :: 't' :: 't' :: 'p' :: ':' :: '/' :: '/' :: X) = true
    unfold hasHttpScheme
    have : "http://".data.isPrefixOf ('h' :: 't' :: 't' :: 'p' :: ':' :: '/' :: '/' :: X) = true := by
      show List.isPrefixOf ['h', 't', 't', 'p', ':', '/', '/'] _ = true
      simp [List.isPrefixOf]
    rw [this]
    rfl
  · show hasHttpScheme ('h' :: 't' :: 't' :: 'p' :: 's' :: ':' :: '/' :: '/' :: X) = true
    unfold hasHttpScheme
    have : "https://".data.isPrefixOf ('h' :: 't' :: 't' :: 'p' :: 's' :: ':' :: '/' :: '/' :: X) = true := by
      show List.isPrefixOf ['h', 't', 't', 'p', 's', ':', '/', '/'] _ = true
      simp [List.isPrefixOf]
    rw [this]
    simp

/-- `normalize_url` fixes the output of a first normalization whose parts
are well-formed and params-free. -/
theorem normalize_core_aux (S N P Q F : List Char)
    (hS : S = ['h', 't', 't', 'p'] ∨ S = ['h', 't', 't', 'p', 's'])
    (hn : N ≠ []) (hNs : ∀ c ∈ N, notStop c = true)
    (hPhead : P = [] ∨ P.head? = some '/')
    (hPh : '#' ∉ P) (hPq : '?' ∉ P) (hPsemi : ';' ∉ P)
    (hQh : '#' ∉ Q) :
    normalize_url (urlunparse (normParts ⟨S, N, P, [], Q, F⟩)) =
      urlunparse (normParts ⟨S, N, P, [], Q, F⟩) := by
  obtain ⟨pt, hpt⟩ := normPath_head P hPhead
  have hq : normParts (⟨S, N, P, [], Q, F⟩ : URLParts) =
      ⟨S, lowerChars N, '/' :: pt, [], Q, F⟩ := by
    simp only [normParts]
    rw [hpt]
  rw [hq]
  have hs : S ≠ [] := by rcases hS with rfl | rfl <;> decide
  have hn2 : lowerChars N ≠ [] := by simpa [lowerChars] using hn
  have hNs2 : ∀ c ∈ lowerChars N, notStop c = true := lowerChars_notStop N hNs
  have hmem : ∀ x ∈ '/' :: pt, x = '/' ∨ x ∈ P := by
    rw [← hpt]
    exact fun x hx => mem_normPath P x hx
  have hPh2 : '#' ∉ '/' :: pt := by
    intro hm
    rcases hmem _ hm with h | h
    · exact absurd h (by decide)
    · exact hPh h
  have hPq2 : '?' ∉ '/' :: pt := by
    intro hm
    rcases hmem _ hm with h | h
    · exact absurd h (by decide)
    · exact hPq h
  have hPsemi2 : ';' ∉ '/' :: pt := by
    intro hm
    rcases hmem _ hm with h | h
    · exact absurd h (by decide)
    · exact hPsemi h
  have hws : withScheme (urlunparse ⟨S, lowerChars N, '/' :: pt, [], Q, F⟩)
      = urlunparse ⟨S, lowerChars N, '/' :: pt, [], Q, F⟩ := by
    rw [urlunparse_shape S _ pt Q F hs hn2]
    unfold withScheme
    rw [if_pos (hasHttpScheme_shape S _ hS)]
  simp only [normalize_url]
  rw [hws]
  rw [urlparse_unparse S (lowerChars N) pt Q F hS hn2 hNs2 hPh2 hPq2 hPsemi2 hQh]
  have hstable : normParts (⟨S, lowerChars N, '/' :: pt, [], Q, F⟩ : URLParts)
      = ⟨S, lowerChars N, '/' :: pt, [], Q, F⟩ := by
    simp only [normParts]
    rw [lowerChars_idem]
    rw [← hpt, normPath_idem, hpt]
  rw [hstable]

/-- Idempotence of `normalize_url` for URLs with a nonempty host and no
path parameters. -/
theorem normalize_idem_core (u : List Char)
    (hn : (urlparse (withScheme u)).netloc ≠ [])
    (hsemi : ';' ∉ (urlparse (withScheme u)).path)
    (hparams : (urlparse (withScheme u)).params = []) :
    normalize_url (normalize_url u) = normalize_url u := by
  obtain ⟨S, t, hS, hw⟩ := withScheme_decomp u
  have hp := urlparse_SSlash S t hS
  rw [hw, hp] at hn hsemi hparams
  set N := t.takeWhile notStop with hN
  set r := t.dropWhile notStop with hr
  set b := (splitTail '#' r).1 with hbdef
  set bq := (splitTail '?' b).1 with hbqdef
  set P := (splitParams bq).1 with hPdef
  set PR := (splitParams bq).2 with hPRdef
  set Q := (splitTail '?' b).2 with hQdef
  set F := (splitTail '#' r).2 with hFdef
  simp only at hn hsemi hparams
  have hb : '#' ∉ b := by rw [hbdef]; exact splitTail_fst_not_mem _ _
  have hbqpre : bq <+: b := by rw [hbqdef]; exact splitTail_fst_prefix _ _
  have hbqq : '?' ∉ bq := by rw [hbqdef]; exact splitTail_fst_not_mem _ _
  have hbqh : '#' ∉ bq := fun hm => hb (hbqpre.subset hm)
  have hPsub : ∀ x ∈ P, x ∈ bq := by
    rw [hPdef]; exact splitParams_fst_subset bq
  have hPh : '#' ∉ P := fun hm => hbqh (hPsub _ hm)
  have hPq : '?' ∉ P := fun hm => hbqq (hPsub _ hm)
  have hQsub : ∀ x ∈ Q, x ∈ b := by
    rw [hQdef]; exact splitTail_snd_subset '?' b
  have hQh : '#' ∉ Q := fun hm => hb (hQsub _ hm)
  have hNs : ∀ c ∈ N, notStop c = true := by
    rw [hN]; exact fun c hc => List.mem_takeWhile_imp hc
  have hbqhead : bq = [] ∨ bq.head? = some '/' := by
    by_cases hbqnil : bq = []
    · exact Or.inl hbqnil
    · right
      have hpre2 : bq <+: r := by
        refine hbqpre.trans ?_
        rw [hbdef]
        exact splitTail_fst_prefix '#' r
      have hh : bq.head? = r.head? := prefix_head_eq _ _ hpre2 hbqnil
      rcases dropWhile_head_cases notStop t with hrnil | ⟨c, cs, hrc, hcf⟩
      · rw [← hr] at hrnil
        rw [hrnil] at hpre2
        exact absurd (List.prefix_nil.mp hpre2) hbqnil
      · rw [← hr] at hrc
        rw [hrc] at hh
        have hcbq : c ∈ bq := by
          cases hbqc : bq with
          | nil => exact absurd hbqc hbqnil
          | cons a l =>
            rw [hbqc] at hh
            injection hh with hh
            rw [← hh]
            exact List.mem_cons_self _ _
        rcases not_notStop_cases c hcf with rfl | rfl | rfl
        · exact hh
        · exact absurd hcbq hbqq
        · exact absurd hcbq hbqh
  have hPhead : P = [] ∨ P.head? = some '/' := by
    rcases hbqhead with hnil | hhead
    · left
      rw [hPdef, hnil]
      rfl
    · right
      rw [hPdef]
      exact splitParams_fst_head bq hhead
  have key := normalize_core_aux S N P Q F hS hn hNs hPhead hPh hPq hsemi hQh
  have hnu : normalize_url u = urlunparse (normParts ⟨S, N, P, [], Q, F⟩) := by
    simp only [normalize_url]
    rw [hw, hp, hparams]
  rw [hnu]
  exact key

/-- C6 (amended): `normalize_url` is idempotent for every URL whose parsed
host is nonempty and whose path carries no `;`-params (no semicolon in the
path, empty params component), and the spec's concrete equations hold:
`normalize("quill.co/blog/") = normalize("https://quill.co/blog") =
"https://quill.co/blog"`.  Idempotence does **not** hold for every
well-formed URL: Python's `urlparse` splits path params only after the last
slash, so stripping a trailing slash can expose a `;`-segment to the second
parse (see the counterexample). -/
theorem normalize_idempotent :
    (∀ u : List Char,
      (urlparse (withScheme u)).netloc ≠ [] →
      ';' ∉ (urlparse (withScheme u)).path →
      (urlparse (withScheme u)).params = [] →
      normalize_url (normalize_url u) = normalize_url u)
    ∧ normalize_url "quill.co/blog/".data = "https://quill.co/blog".data
    ∧ normalize_url "https://quill.co/blog".data = "https://quill.co/blog".data :=
  ⟨fun u h1 h2 h3 => normalize_idem_core u h1 h2 h3, by decide, by decide⟩

/-- C6 witness: the spec's own example URL satisfies the hypotheses. -/
theorem normalize_idempotent_witness :
    ((urlparse (withScheme "quill.co/blog/".data)).netloc ≠ []
      ∧ ';' ∉ (urlparse (withScheme "quill.co/blog/".data)).path
      ∧ (urlparse (withScheme "quill.co/blog/".data)).params = [])
    ∧ normalize_url (normalize_url "quill.co/blog/".data) =
        normalize_url "quill.co/blog/".data :=
  ⟨⟨by decide, by decide, by decide⟩,
   normalize_idempotent.1 "quill.co/blog/".data (by decide) (by decide)
     (by decide)⟩

/-- C6 counterexample to the claim as stated: `https://example.com/a/;b/`
is well-formed (nonempty host), yet one normalization yields
`https://example.com/a/;b` and a second yields `https://example.com/a;b`
(matching CPython), so normalize ∘ normalize ≠ normalize. -/
theorem normalize_not_idempotent_cex :
    (urlparse (withScheme "https://example.com/a/;b/".data)).netloc ≠ []
    ∧ normalize_url (normalize_url "https://example.com/a/;b/".data) ≠
        normalize_url "https://example.com/a/;b/".data :=
  ⟨by decide, by decide⟩
